import Mathlib

/-!
# Proof-of-work ledger (`main.go`): model and properties

Shallow embedding of the mining/ledger engine of `main.go`, and of the
delegate ranking `sortNodesByVoteCount` of `Dpos/main.go` (namespace `Dpos`).

Modelling conventions.

* `[]byte` is `List Byte` (a nil slice and an empty slice are both `[]`; the
  code only ever compares them through `string(..)`, which identifies them).
* `int64` fields are `Int`, `uint` fields are `Nat`; arithmetic that can wrap
  carries the wrap explicitly (`% 2^64`, `wrapInt64`).
* `float64` is `Float64`: a finite value is a rational, plus the NaN that the
  code's own `0/0` produces.  The difference `256 - TargetBit` of `Mine` is
  rounded to binary64 (`round64`, `Float64.sub64`); the quotient and the
  product of the retarget are kept exact.
* `time.Now().Unix()` is an argument `now` of the operation that reads it.
* A run-time panic is the outcome `Run.panic`, carrying the ledger as it was
  when the panic was raised.
* The read/write mutex serialises the operations; each operation is one
  atomic step on `Blockchain`.
* `sha256.Sum256` is SHA-256 itself (`Sha256.Sum256`, FIPS 180-4), so digests
  are computed, not assumed.
* A miner's channel is the number of tokens sent to it and not yet received;
  `Mine` is told how many tokens arrive before each of its polls.
-/

namespace Pow

/-! ## Data model -/

abbrev Byte := Fin 256

/-- Values of Go's `float64` as the ledger uses them: finite values are
rationals, `nan` is the result of `0/0`. -/
inductive Float64 where
  | fin (q : ℚ)
  | nan
  deriving DecidableEq

namespace Float64

/-- Product of two floats. -/
def mul : Float64 → Float64 → Float64
  | fin a, fin b => fin (a * b)
  | _, _ => nan

/-- Conversion `uint64(f)` / `uint(f)`: the fraction is discarded (truncation
toward zero).  Where the truncated value is not representable Go leaves the
result to the implementation; the model saturates (as arm64 does). -/
def toUint64 : Float64 → Nat
  | fin q => min (Int.toNat (Rat.floor q)) (2 ^ 64 - 1)
  | nan => 0

end Float64

/-- Struct `BlockWithoutProof`. -/
structure BlockWithoutProof where
  CoinBase : Int
  timestamp : Int
  data : List Byte
  prevBlockHash : List Byte
  PrevBlockHashHex : String
  TargetBit : Float64
  deriving DecidableEq

/-- Struct `Proof`. -/
structure Proof where
  ActualTimestamp : Int
  Nonce : Int
  hash : List Byte
  HashHex : String
  deriving DecidableEq

/-- Struct `Block`: the embedded `*BlockWithoutProof` (taken non-nil) and the
embedded `Proof`. -/
structure Block extends BlockWithoutProof, Proof
  deriving DecidableEq

/-- Struct `Miner`.  `waitForSignal` counts the tokens sent to the miner's
channel and not yet received (buffered, or held by a sender goroutine). -/
structure Miner where
  Id : Int
  Balance : Nat
  waitForSignal : Nat
  deriving DecidableEq

/-- Struct `BlockchainConfig`. -/
structure BlockchainConfig where
  MinerCount : Int
  OutBlockTime : Nat
  InitialDifficulty : Float64
  ModifyDifficultyBlockNumber : Nat
  BookkeepingIncentives : Nat
  deriving DecidableEq

/-- Struct `Blockchain` (the mutex is not state of the model). -/
structure Blockchain where
  config : BlockchainConfig
  currentDifficulty : Float64
  blocks : List Block
  miners : List Miner
  deriving DecidableEq

/-- Outcome of an operation that may panic. -/
inductive Run (σ : Type) where
  | ok (s : σ)
  | panic (s : σ)
  deriving DecidableEq

namespace Run

/-- The ledger an outcome leaves behind. -/
def state {σ : Type} : Run σ → σ
  | ok s => s
  | panic s => s

/-- Sequencing: a panic stops the run. -/
def andThen {σ : Type} : Run σ → (σ → Run σ) → Run σ
  | ok s, f => f s
  | panic s, _ => panic s

end Run

/-! ## Machine arithmetic -/

/-- Two's-complement wrap of an integer into the `int64` range. -/
def wrapInt64 (x : Int) : Int := (x + 2 ^ 63) % 2 ^ 64 - 2 ^ 63

/-- Subtraction of two `uint` values. -/
def uintSub (a b : Nat) : Nat := if b ≤ a then a - b else a + 2 ^ 64 - b

/-- Method `big.Int.SetBytes`: a byte slice read as a big-endian unsigned integer. -/
def hashInt (bs : List Byte) : Nat := bs.foldl (fun acc b => acc * 256 + b.val) 0

/-- Modelled from the spec: the threshold `Block.Verify`, which the sources
do not define, compares a digest with.  The spec: "strictly less than
`2^(256 − block.targetBit)`"; the exponent is the exact difference, without
the rounding of a `float64` subtraction, cut to a whole number, so the bound
is never looser than the spec's.  The threshold `Mine` executes is
`mineTarget`. -/
def target : Float64 → Nat
  | .fin q => 2 ^ Float64.toUint64 (.fin (256 - q))
  | .nan => 2 ^ Float64.toUint64 .nan

/-- The quotient `N / D` rounded to the nearest whole number, a tie going to
the even one. -/
def roundHalfEven (N D : Nat) : Nat :=
  if 2 * (N % D) < D then N / D
  else if D < 2 * (N % D) then N / D + 1
  else if N / D % 2 = 0 then N / D else N / D + 1

/-- Halving with fuel: the number of times `n` can be halved before it drops
below 2, at most `fuel` times. -/
def log2Aux : Nat → Nat → Nat
  | 0, _ => 0
  | fuel + 1, n => if 2 ≤ n then log2Aux fuel (n / 2) + 1 else 0

/-- The position of the highest set bit, `floor(log2 n)` for positive `n`. -/
def ilog2 (n : Nat) : Nat := log2Aux n n

/-- The binary exponent `floor(log2 (n / d))` of a positive quotient. -/
def binExp (n d : Nat) : Int :=
  if (if (ilog2 d : Int) ≤ (ilog2 n : Int) then d * 2 ^ (ilog2 n - ilog2 d) ≤ n
      else d ≤ n * 2 ^ (ilog2 d - ilog2 n))
  then (ilog2 n : Int) - (ilog2 d : Int) else (ilog2 n : Int) - (ilog2 d : Int) - 1

/-- Rounding of an exact result to binary64 (IEEE 754, the arithmetic of Go's
`float64`): to the nearest value with 53 significant bits and an exponent of
at least -1022 (gradual underflow), a tie going to the even significand.
Overflow to an infinity is not represented; the difference `256 - d` of a
`float64` value `d` cannot overflow. -/
def round64 (x : ℚ) : ℚ :=
  let n := x.num.natAbs
  let s : Int := max (binExp n x.den) (-1022) - 52
  let mag : ℚ :=
    if 0 ≤ s then ((roundHalfEven n (x.den * 2 ^ s.toNat) * 2 ^ s.toNat : Nat) : ℚ)
    else ((roundHalfEven (n * 2 ^ (-s).toNat) x.den : Nat) : ℚ) / ((2 ^ (-s).toNat : Nat) : ℚ)
  if x < 0 then -mag else mag

/-- Subtraction of two `float64` values as Go executes it: the exact
difference rounded to binary64. -/
def Float64.sub64 : Float64 → Float64 → Float64
  | .fin a, .fin b => .fin (round64 (a - b))
  | _, _ => .nan

/-- The threshold of `Mine`: `big.NewInt(1).Lsh(uint(256 - b.TargetBit))`. -/
def mineTarget (targetBit : Float64) : Nat :=
  2 ^ Float64.toUint64 (Float64.sub64 (.fin 256) targetBit)

/-! ## Construction -/

/-- Function `GenerateGenesisBlock`. -/
def GenerateGenesisBlock (data : List Byte) (now : Int) : Block :=
  { CoinBase := 0, timestamp := 0, data := data, prevBlockHash := [],
    PrevBlockHashHex := "", TargetBit := .fin 0,
    ActualTimestamp := now, Nonce := 0, hash := [], HashHex := "" }

/-- Function `NewBlockChainNetWork`. -/
def NewBlockChainNetWork (blockchainConfig : BlockchainConfig) (now : Int) : Blockchain :=
  { config := blockchainConfig
    currentDifficulty := blockchainConfig.InitialDifficulty
    blocks := [GenerateGenesisBlock [] now]
    miners := (List.range blockchainConfig.MinerCount.toNat).map
      fun (i : Nat) => { Id := (i : Int), Balance := 0, waitForSignal := 0 } }

/-- Function `IncreaseMiner` (the worker it starts is not part of the ledger). -/
def IncreaseMiner (bc : Blockchain) : Blockchain :=
  { bc with miners := bc.miners ++
      [{ Id := (bc.miners.length : Int), Balance := 0, waitForSignal := 0 }] }

/-! ## Block acceptance -/

/-- Modelled from the spec: `Block.Verify` is called by `verifyNewBlock` but is
defined nowhere in the sources.  The spec: "the candidate's digest, as an
unsigned integer, must be below the threshold implied by its declared bits",
that threshold being `target`. -/
def Block.Verify (block : Block) : Bool :=
  decide (hashInt block.hash < target block.TargetBit)

/-- Function `verifyNewBlock`; `none` is the index panic on an empty chain. -/
def verifyNewBlock (bc : Blockchain) (block : Block) : Option Bool :=
  match bc.blocks.getLast? with
  | none => none
  | some prevBlock =>
    if block.TargetBit.toUint64 ≠ bc.currentDifficulty.toUint64 then some false
    else if prevBlock.hash ≠ block.prevBlockHash then some false
    else if !block.Verify then some false
    else some true

/-- Local `actuallyTime` of `adjustDifficulty`, given the two blocks read. -/
def actuallyTime (last first : Block) : Int :=
  wrapInt64 (last.ActualTimestamp - first.ActualTimestamp)

/-- Local `theoryTime` of `adjustDifficulty` (a `uint` product). -/
def theoryTime (config : BlockchainConfig) : Nat :=
  (config.OutBlockTime * config.ModifyDifficultyBlockNumber) % 2 ^ 64

/-- Local `ratio` of `adjustDifficulty` after the clamp.  `theory` is never
negative; with `actual = 0` the quotient is `+Inf` (clamped to 1.1) or, for
`0/0`, NaN, which passes both comparisons. -/
def clampedRatio (theory : Nat) (actual : Int) : Float64 :=
  if actual = 0 then
    if theory = 0 then .nan else .fin (11 / 10)
  else
    let ratio : ℚ := (theory : ℚ) / (actual : ℚ)
    if ratio > 11 / 10 then .fin (11 / 10)
    else if ratio < 1 / 2 then .fin (1 / 2)
    else .fin ratio

/-- Function `adjustDifficulty`. -/
def adjustDifficulty (bc : Blockchain) : Run Blockchain :=
  if bc.config.ModifyDifficultyBlockNumber = 0 then .panic bc
  else if bc.blocks.length % bc.config.ModifyDifficultyBlockNumber = 0 then
    match bc.blocks.getLast?,
      bc.blocks[uintSub bc.blocks.length bc.config.ModifyDifficultyBlockNumber]? with
    | some block, some first =>
      .ok { bc with currentDifficulty :=
        bc.currentDifficulty.mul (clampedRatio (theoryTime bc.config) (actuallyTime block first)) }
    | _, _ => .panic bc
  else .ok bc

/-- Function `bookkeepingRewards`: the index expression panics outside the registry. -/
def bookkeepingRewards (bc : Blockchain) (coinBase : Int) : Run Blockchain :=
  if 0 ≤ coinBase ∧ coinBase.toNat < bc.miners.length then
    let credit : Miner → Miner := fun m =>
      { m with Balance := (m.Balance + bc.config.BookkeepingIncentives) % 2 ^ 64 }
    .ok { bc with miners := bc.miners.modify credit coinBase.toNat }
  else .panic bc

/-- Loop of `notifyMiners` from position `i` on. -/
def notifyFrom (sponsor : Int) : Nat → List Miner → List Miner
  | _, [] => []
  | i, m :: ms =>
    (if (i : Int) ≠ sponsor then { m with waitForSignal := m.waitForSignal + 1 } else m)
      :: notifyFrom sponsor (i + 1) ms

/-- Function `notifyMiners`. -/
def notifyMiners (bc : Blockchain) (sponsor : Int) : Blockchain :=
  { bc with miners := notifyFrom sponsor 0 bc.miners }

/-- The candidate as `AddBlock` stamps it. -/
def stamp (block : Block) (now : Int) : Block :=
  { block with ActualTimestamp := now }

/-- Function `AddBlock`. -/
def AddBlock (bc : Blockchain) (block : Block) (now : Int) : Run Blockchain :=
  let block := stamp block now
  match verifyNewBlock bc block with
  | none => .panic bc
  | some false => .ok bc
  | some true =>
    (adjustDifficulty { bc with blocks := bc.blocks ++ [block] }).andThen fun bc =>
    (bookkeepingRewards bc block.CoinBase).andThen fun bc =>
    .ok (notifyMiners bc block.CoinBase)

/-- States the ledger can be in: built by `NewBlockChainNetWork`, then changed
by calls of `AddBlock` and `IncreaseMiner` that return. -/
inductive Reachable (cfg : BlockchainConfig) : Blockchain → Prop where
  | init (now : Int) : Reachable cfg (NewBlockChainNetWork cfg now)
  | addBlock {bc bc2 : Blockchain} (block : Block) (now : Int) :
      Reachable cfg bc → AddBlock bc block now = .ok bc2 → Reachable cfg bc2
  | increaseMiner {bc : Blockchain} : Reachable cfg bc → Reachable cfg (IncreaseMiner bc)

/-! ## SHA-256 (`crypto/sha256.Sum256`, FIPS 180-4) -/

namespace Sha256

/-- The first 64 prime numbers. -/
def primes : List Nat :=
  [2, 3, 5, 7, 11, 13, 17, 19, 23, 29, 31, 37, 41, 43, 47, 53, 59, 61, 67, 71, 73, 79, 83, 89,
   97, 101, 103, 107, 109, 113, 127, 131, 137, 139, 149, 151, 157, 163, 167, 173, 179, 181,
   191, 193, 197, 199, 211, 223, 227, 229, 233, 239, 241, 251, 257, 263, 269, 271, 277, 281,
   283, 293, 307, 311]

/-- The integer part of the `k`-th root of `n`, for `n < 2^(40*k)`, found bit
by bit from the top. -/
def iroot (k n : Nat) : Nat :=
  (List.range 40).foldr (fun i r => if (r + 2 ^ i) ^ k ≤ n then r + 2 ^ i else r) 0

/-- Round constants of SHA-256: the first 32 bits of the fractional parts of
the cube roots of the first 64 primes. -/
def K : List Nat := primes.map fun p => iroot 3 (p * 2 ^ 96) % 2 ^ 32

/-- Initial hash value of SHA-256: the first 32 bits of the fractional parts
of the square roots of the first 8 primes. -/
def H0 : List Nat := (primes.take 8).map fun p => iroot 2 (p * 2 ^ 64) % 2 ^ 32

/-- Rotation of a 32-bit word to the right. -/
def rotr (x n : Nat) : Nat := ((x >>> n) ||| (x <<< (32 - n))) % 2 ^ 32

/-- Addition of 32-bit words. -/
def add32 (a b : Nat) : Nat := (a + b) % 2 ^ 32

/-- Padding: the byte 0x80, zero bytes up to 56 modulo 64, then the bit length
of the message as a 64-bit big-endian integer. -/
def pad (msg : List Nat) : List Nat :=
  msg ++ [0x80] ++ List.replicate ((119 - msg.length % 64) % 64) 0 ++
    (List.range 8).map (fun i => (8 * msg.length) >>> (8 * (7 - i)) % 256)

/-- Big-endian 32-bit words of a byte list. -/
def words : List Nat → List Nat
  | a :: b :: c :: d :: rest => (((a * 256 + b) * 256 + c) * 256 + d) :: words rest
  | _ => []

/-- Message schedule: `n` more words, `w` holding the words so far, newest
first. -/
def schedule : Nat → List Nat → List Nat
  | 0, w => w
  | n + 1, w =>
    let w2 := w.getD 1 0
    let w15 := w.getD 14 0
    let s0 := rotr w15 7 ^^^ rotr w15 18 ^^^ (w15 >>> 3)
    let s1 := rotr w2 17 ^^^ rotr w2 19 ^^^ (w2 >>> 10)
    schedule n (add32 (add32 (add32 (w.getD 15 0) s0) (w.getD 6 0)) s1 :: w)

/-- The eight working variables. -/
structure St where
  a : Nat
  b : Nat
  c : Nat
  d : Nat
  e : Nat
  f : Nat
  g : Nat
  h : Nat

/-- One round, on a pair (round constant, schedule word). -/
def round (s : St) (kw : Nat × Nat) : St :=
  let S1 := rotr s.e 6 ^^^ rotr s.e 11 ^^^ rotr s.e 25
  let ch := (s.e &&& s.f) ^^^ ((2 ^ 32 - 1 - s.e) &&& s.g)
  let t1 := add32 (add32 (add32 (add32 s.h S1) ch) kw.1) kw.2
  let S0 := rotr s.a 2 ^^^ rotr s.a 13 ^^^ rotr s.a 22
  let maj := (s.a &&& s.b) ^^^ (s.a &&& s.c) ^^^ (s.b &&& s.c)
  let t2 := add32 S0 maj
  { a := add32 t1 t2, b := s.a, c := s.b, d := s.c,
    e := add32 s.d t1, f := s.e, g := s.f, h := s.g }

/-- Compression of one 16-word block into the chaining value. -/
def compress (hs : St) (block : List Nat) : St :=
  let s := (K.zip (schedule 48 block.reverse).reverse).foldl round hs
  { a := add32 hs.a s.a, b := add32 hs.b s.b, c := add32 hs.c s.c, d := add32 hs.d s.d,
    e := add32 hs.e s.e, f := add32 hs.f s.f, g := add32 hs.g s.g, h := add32 hs.h s.h }

/-- Compression of `n` successive blocks. -/
def blocks : Nat → List Nat → St → St
  | 0, _, hs => hs
  | n + 1, ws, hs => blocks n (ws.drop 16) (compress hs (ws.take 16))

/-- The four bytes of a 32-bit word, most significant first. -/
def wordBytes (w : Nat) : List Byte :=
  [Fin.ofNat (w >>> 24), Fin.ofNat (w >>> 16), Fin.ofNat (w >>> 8), Fin.ofNat w]

/-- The digest `sha256.Sum256(msg)`. -/
def Sum256 (msg : List Byte) : List Byte :=
  let ws := words (pad (msg.map Fin.val))
  let s := blocks (ws.length / 16) ws
    { a := H0.getD 0 0, b := H0.getD 1 0, c := H0.getD 2 0, d := H0.getD 3 0,
      e := H0.getD 4 0, f := H0.getD 5 0, g := H0.getD 6 0, h := H0.getD 7 0 }
  wordBytes s.a ++ wordBytes s.b ++ wordBytes s.c ++ wordBytes s.d ++
    wordBytes s.e ++ wordBytes s.f ++ wordBytes s.g ++ wordBytes s.h

end Sha256

/-! ## Proof search -/

/-- Variable `maxNonce`: `math.MaxInt64`. -/
def maxNonce : Nat := 2 ^ 63 - 1

/-- Conversion `int64(f)`: the fraction is discarded (truncation toward
zero).  Where the truncated value is not representable Go leaves the result
to the implementation; the model saturates (as arm64 does). -/
def Float64.toInt64 : Float64 → Int
  | .fin q =>
    max (-(2 ^ 63)) (min (if 0 ≤ q then Rat.floor q else -Rat.floor (-q)) (2 ^ 63 - 1))
  | .nan => 0

/-- One lowercase hexadecimal digit, as its ASCII byte. -/
def hexDigit (d : Nat) : Byte := if d < 10 then Fin.ofNat (48 + d) else Fin.ofNat (87 + d)

/-- The hexadecimal digits of `n`, most significant first, without leading
zeros; `fuel` bounds the number of digits. -/
def hexDigits : Nat → Nat → List Byte
  | 0, _ => []
  | fuel + 1, n => if n < 16 then [hexDigit n] else hexDigits fuel (n / 16) ++ [hexDigit (n % 16)]

/-- Function `int2Hex`: `[]byte(fmt.Sprintf("%x", n))` for an `int64`, a minus
sign for a negative number followed by the digits of the magnitude (at most
16 of them). -/
def int2Hex (n : Int) : List Byte :=
  if n < 0 then 45 :: hexDigits 16 n.natAbs else hexDigits 16 n.toNat

/-- Function `bytes.Join`. -/
def bytesJoin : List (List Byte) → List Byte → List Byte
  | [], _ => []
  | [a], _ => a
  | a :: b :: rest, sep => a ++ sep ++ bytesJoin (b :: rest) sep

/-- Function `prepareData`. -/
def prepareData (block : BlockWithoutProof) (nonce : Int) : List Byte :=
  bytesJoin
    [int2Hex block.CoinBase, block.prevBlockHash, block.data, int2Hex block.timestamp,
      int2Hex block.TargetBit.toInt64, int2Hex nonce]
    []

/-- Function `hex.EncodeToString`: two lowercase digits per byte. -/
def hexEncode (bs : List Byte) : String :=
  String.mk (bs.flatMap fun b => [Nat.digitChar (b.val / 16), Nat.digitChar (b.val % 16)])

/-- What a call of `Mine` leaves: the block of `(block, true)` or `none` for
`(nil, false)`, the tokens still in the channel, and the value of the local
variable `nonce` at the return. -/
structure MineResult where
  block : Option Block
  waitForSignal : Nat
  nonce : Nat
  deriving DecidableEq

/-- The loop of `Mine`.  `fuel` is `maxNonce - nonce`, the number of
iterations the loop condition still allows; `box` is the number of tokens in
the channel and `arrive n` the number of tokens sent to it between the
previous poll and the poll of the iteration with nonce `n`. -/
def mineLoop (b : BlockWithoutProof) (arrive : Nat → Nat) : Nat → Nat → Nat → MineResult
  | 0, nonce, box => { block := none, waitForSignal := box, nonce := nonce }
  | fuel + 1, nonce, box =>
    if 0 < box + arrive nonce then
      { block := none, waitForSignal := box + arrive nonce - 1, nonce := nonce }
    else
      let hash := Sha256.Sum256 (prepareData b (nonce : Int))
      if hashInt hash < mineTarget b.TargetBit then
        { block := some { toBlockWithoutProof := b, ActualTimestamp := 0, Nonce := (nonce : Int),
                          hash := hash, HashHex := hexEncode hash }
          waitForSignal := box + arrive nonce
          nonce := nonce }
      else mineLoop b arrive fuel (nonce + 1) (box + arrive nonce)

/-- Function `Mine`, called with `box` tokens in the channel. -/
def Mine (b : BlockWithoutProof) (box : Nat) (arrive : Nat → Nat) : MineResult :=
  mineLoop b arrive maxNonce 0 box

/-- Function `assembleNewBlock`: the header and the ledger it leaves; `none` is
the index panic on an empty chain. -/
def assembleNewBlock (bc : Blockchain) (coinBase : Int) (data : List Byte) (now : Int) :
    Option (BlockWithoutProof × Blockchain) :=
  match bc.blocks.getLast? with
  | none => none
  | some tip =>
    some ({ CoinBase := coinBase, timestamp := now, data := data, prevBlockHash := tip.hash,
            TargetBit := bc.currentDifficulty, PrevBlockHashHex := tip.HashHex }, bc)

/-! ## Runs and predicates used in the statements -/

/-- Every block names the digest of its predecessor. -/
def Linked (bs : List Block) : Prop :=
  ∀ i a b, bs[i]? = some a → bs[i + 1]? = some b → b.prevBlockHash = a.hash

/-- Every block after the genesis block has a digest below the threshold of
its own target bits. -/
def Proven (bs : List Block) : Prop :=
  ∀ i b, bs[i + 1]? = some b → hashInt b.hash < target b.TargetBit

/-- The bookkeeping invariant of a run with winners `ws`: ids are positions,
balances are the credited incentives modulo `2^64`, winners are registered. -/
def Accounted (cfg : BlockchainConfig) (ws : List Int) (bc : Blockchain) : Prop :=
  bc.config = cfg ∧
  (∀ (i : Nat) (m : Miner), bc.miners[i]? = some m →
    m.Id = (i : Int) ∧
    m.Balance = (ws.count (i : Int) * cfg.BookkeepingIncentives) % 2 ^ 64) ∧
  (∀ w ∈ ws, 0 ≤ w ∧ w.toNat < bc.miners.length)

/-- Runs of the ledger from `NewBlockChainNetWork`, with the coinbases of the
candidates accepted so far, oldest first.  A call of `AddBlock` counts when it
returns; a panic ends the process. -/
inductive RunsTo (cfg : BlockchainConfig) : List Int → Blockchain → Prop where
  | init (now : Int) : RunsTo cfg [] (NewBlockChainNetWork cfg now)
  | accept {ws : List Int} {bc bc2 : Blockchain} (block : Block) (now : Int) :
      RunsTo cfg ws bc → verifyNewBlock bc block = some true →
      AddBlock bc block now = .ok bc2 → RunsTo cfg (ws ++ [block.CoinBase]) bc2
  | reject {ws : List Int} {bc bc2 : Blockchain} (block : Block) (now : Int) :
      RunsTo cfg ws bc → verifyNewBlock bc block = some false →
      AddBlock bc block now = .ok bc2 → RunsTo cfg ws bc2
  | increaseMiner {ws : List Int} {bc : Blockchain} :
      RunsTo cfg ws bc → RunsTo cfg ws (IncreaseMiner bc)

/-- The two mutating calls of the ledger. -/
inductive Op where
  | addBlock (block : Block) (now : Int)
  | increaseMiner

/-- One call on the ledger. -/
def step (bc : Blockchain) : Op → Run Blockchain
  | .addBlock block now => AddBlock bc block now
  | .increaseMiner => .ok (IncreaseMiner bc)

/-- The observed window time as the specification words it: the acceptance
timestamp of the tip minus that of the block `windowSize` positions before
the tip (`none` when the chain has no such block). -/
def specObservedTime (bc : Blockchain) : Option Int :=
  match bc.blocks.reverse[0]?, bc.blocks.reverse[bc.config.ModifyDifficultyBlockNumber]? with
  | some tip, some before => some (tip.ActualTimestamp - before.ActualTimestamp)
  | _, _ => none

/-! ## Concrete ledgers used to exercise the theorems -/

/-- The configuration of `main`, with one miner. -/
def cfgA : BlockchainConfig :=
  { MinerCount := 1, OutBlockTime := 10, InitialDifficulty := .fin 20,
    ModifyDifficultyBlockNumber := 10, BookkeepingIncentives := 20 }

/-- A candidate on the genesis block of `cfgA`: 20 target bits and a 32-byte
digest with 24 leading zero bits. -/
def candA : Block :=
  { CoinBase := 0, timestamp := 101, data := [1, 2], prevBlockHash := [],
    PrevBlockHashHex := "", TargetBit := .fin 20,
    ActualTimestamp := 0, Nonce := 7, hash := [0, 0, 0] ++ List.replicate 29 1,
    HashHex := "" }

/-- The ledger of `cfgA` created at time 100. -/
def bcA0 : Blockchain := NewBlockChainNetWork cfgA 100

/-- The ledger `bcA0` after `candA` was accepted at time 105. -/
def bcA1 : Blockchain := (AddBlock bcA0 candA 105).state

/-- The candidate `candA` declaring 20.5 target bits. -/
def candHalf : Block := { candA with TargetBit := .fin (41 / 2) }

/-- A second candidate on the genesis block of `cfgA`, by the same miner. -/
def candB : Block :=
  { candA with timestamp := 102, data := [3], Nonce := 11,
               hash := [0, 0, 0] ++ List.replicate 29 2 }

/-- A candidate on `candA` whose digest repeats the digest of `candA`. -/
def candSame : Block :=
  { candA with timestamp := 106, data := [4], prevBlockHash := candA.hash, Nonce := 3 }

/-- Another candidate on `candA`. -/
def candLate : Block :=
  { candA with timestamp := 107, data := [5], prevBlockHash := candA.hash, Nonce := 9,
               hash := [0, 0, 0] ++ List.replicate 29 3 }

/-- The configuration of `main` with one miner and a retarget window of 2. -/
def cfgW : BlockchainConfig := { cfgA with ModifyDifficultyBlockNumber := 2 }

/-- The ledger of `cfgW` created at time 0. -/
def bcW0 : Blockchain := NewBlockChainNetWork cfgW 0

/-- The ledger `bcW0` after `candA` was accepted at time 100 (the chain length
reaches 2 and the difficulty is halved to 10). -/
def bcW1 : Blockchain := (AddBlock bcW0 candA 100).state

/-- A candidate on `candA` declaring 10 target bits. -/
def candW2 : Block :=
  { candA with timestamp := 106, data := [6], prevBlockHash := candA.hash,
               TargetBit := .fin 10, hash := [0, 0, 0] ++ List.replicate 29 2 }

/-- The ledger `bcW1` after `candW2` was accepted at time 110. -/
def bcW2 : Blockchain := (AddBlock bcW1 candW2 110).state

/-- A candidate on `candW2` declaring 10 target bits. -/
def candW3 : Block :=
  { candA with timestamp := 120, data := [7], prevBlockHash := candW2.hash,
               TargetBit := .fin 10, hash := [0, 0, 0] ++ List.replicate 29 3 }

/-- The ledger as `adjustDifficulty` finds it inside `AddBlock bcW2 candW3 130`:
four blocks, accepted at times 0, 100, 110 and 130. -/
def bcW3 : Blockchain := { bcW2 with blocks := bcW2.blocks ++ [stamp candW3 130] }

/-- The configuration `cfgA` with a per-block incentive of `2^63`. -/
def cfgO : BlockchainConfig := { cfgA with BookkeepingIncentives := 2 ^ 63 }

/-- The ledger of `cfgO` created at time 100. -/
def bcO0 : Blockchain := NewBlockChainNetWork cfgO 100

/-- The ledger `bcO0` after `candA` was accepted at time 105. -/
def bcO1 : Blockchain := (AddBlock bcO0 candA 105).state

/-- The ledger `bcO1` after `candLate` was accepted at time 111. -/
def bcO2 : Blockchain := (AddBlock bcO1 candLate 111).state

/-- Ids are positions in the registry. -/
def IdsInOrder (ms : List Miner) : Prop :=
  ∀ (i : Nat) (m : Miner), ms[i]? = some m → m.Id = (i : Int)

/-- The configuration `cfgA` with a retarget window of zero. -/
def cfgZ : BlockchainConfig := { cfgA with ModifyDifficultyBlockNumber := 0 }

/-- Nonce `n` solves the puzzle of header `b`: the digest of `prepareData`
read as an unsigned integer is below the threshold of `Mine`. -/
def Solves (b : BlockWithoutProof) (n : Nat) : Prop :=
  hashInt (Sha256.Sum256 (prepareData b (n : Int))) < mineTarget b.TargetBit

/-- The block `Mine` emits for header `b` and nonce `n`. -/
def minedBlock (b : BlockWithoutProof) (n : Nat) : Block :=
  { toBlockWithoutProof := b, ActualTimestamp := 0, Nonce := (n : Int),
    hash := Sha256.Sum256 (prepareData b (n : Int)),
    HashHex := hexEncode (Sha256.Sum256 (prepareData b (n : Int))) }

/-- A header with 4 target bits. -/
def hdrT : BlockWithoutProof :=
  { CoinBase := 0, timestamp := 1700000000, data := [1, 2, 3], prevBlockHash := [],
    PrevBlockHashHex := "", TargetBit := .fin 4 }

/-- A header on `candA` with 24.25 target bits, a value `float64` holds
exactly; the digest of its nonce 0 lies between `2^231` and `2^231.75`. -/
def hdrG : BlockWithoutProof :=
  { CoinBase := 0, timestamp := 1850327893, data := [1, 2, 3], prevBlockHash := candA.hash,
    PrevBlockHashHex := "", TargetBit := .fin (97 / 4) }

/-- The target bits `4 + 2^-50`, the `float64` value next above 4
(4.000000000000001). -/
def bitsAbove4 : ℚ := 4 + 1 / 2 ^ 50

/-- A header created at 0x6553f101 with `4 + 2^-50` target bits; the digest of
its nonce 0 lies between `2^251` and `2^252`. -/
def hdrR : BlockWithoutProof :=
  { hdrT with timestamp := 1700000001, TargetBit := .fin bitsAbove4 }

/-- The value of one hexadecimal digit given as its ASCII byte. -/
def hexDigitValue (c : Byte) : Nat := if c.val < 58 then c.val - 48 else c.val - 87

/-- The number a string of hexadecimal digits denotes. -/
def hexValue (bs : List Byte) : Nat := bs.foldl (fun acc c => acc * 16 + hexDigitValue c) 0

/-- The sixteen lowercase hexadecimal digits, in the order of their values. -/
def lowerHexDigits : List Char := "0123456789abcdef".toList

/-- The value of a lowercase hexadecimal digit: its place among the sixteen. -/
def hexCharValue (c : Char) : Nat := lowerHexDigits.indexOf c

/-- The bytes a string of hexadecimal digits denotes, two digits to a byte,
the high digit first. -/
def hexDecode : List Char → List Nat
  | a :: b :: rest => (hexCharValue a * 16 + hexCharValue b) :: hexDecode rest
  | _ => []

/-- The string `s` is the lowercase hexadecimal rendering of the bytes `bs`:
two digits for every byte, each one of `0`..`9`, `a`..`f`, which read back as
`bs`. -/
def IsLowerHexOf (s : String) (bs : List Byte) : Prop :=
  s.data.length = 2 * bs.length ∧ (∀ c ∈ s.data, c ∈ lowerHexDigits) ∧
    hexDecode s.data = bs.map Fin.val

/-- The bytes `ds` are the hexadecimal numeral of `m` in ASCII: at least one
digit, each one of `0`..`9`, `a`..`f`, no leading zero except in the numeral
`0` itself, and the digits denote `m`. -/
def IsHexNumeral (ds : List Byte) (m : Nat) : Prop :=
  ds ≠ [] ∧ (∀ c ∈ ds, Char.ofNat c.val ∈ lowerHexDigits) ∧
    (ds.head? = some 48 → ds = [48]) ∧ hexValue ds = m

/-- The header `hdrT` with zero target bits: every nonce solves it. -/
def hdrE : BlockWithoutProof := { hdrT with TargetBit := .fin 0 }

/-- The header `hdrT` created at 0x6553f101 (target bits 4). -/
def hdrS1 : BlockWithoutProof := { hdrT with timestamp := 1700000001 }

/-- The header `hdrT` created at 0x6553f10 with 20 (0x14) target bits. -/
def hdrS2 : BlockWithoutProof := { hdrT with timestamp := 106250000, TargetBit := .fin 20 }

/-- The header `hdrT` with 4.5 target bits. -/
def hdrS3 : BlockWithoutProof := { hdrT with TargetBit := .fin (9 / 2) }

/-- The candidate `candA` naming the unregistered coinbase 5. -/
def candU : Block := { candA with CoinBase := 5 }

/-! ## Delegate ranking (`Dpos/main.go`) -/

namespace Dpos

/-- Struct `Node` of `Dpos/main.go`. -/
structure Node where
  Address : String
  AvailableVotes : Int
  VoteCount : Int
  TokenAmount : Int
  deriving DecidableEq

/-- Body of the inner loop of `sortNodesByVoteCount`: positions `i` and `j` of
`sortedNodes` are exchanged when the vote count at `i` is the smaller one.
The loop guards keep both positions inside the slice. -/
def swapIfLess (s : List Node) (i j : Nat) : List Node :=
  match s[i]?, s[j]? with
  | some a, some b => if a.VoteCount < b.VoteCount then (s.set i b).set j a else s
  | _, _ => s

/-- Inner loop `for j := i + 1; j < len(sortedNodes); j++`, from `j` on;
`fuel` is `len(sortedNodes) - j`, the number of iterations left. -/
def innerLoop (i : Nat) : Nat → Nat → List Node → List Node
  | 0, _, s => s
  | fuel + 1, j, s => innerLoop i fuel (j + 1) (swapIfLess s i j)

/-- Outer loop `for i := 0; i < len(sortedNodes); i++`, from `i` on; `fuel` is
`len(sortedNodes) - i`. -/
def outerLoop : Nat → Nat → List Node → List Node
  | 0, _, s => s
  | fuel + 1, i, s => outerLoop fuel (i + 1) (innerLoop i (s.length - (i + 1)) (i + 1) s)

/-- Function `sortNodesByVoteCount`: the slice it returns, and the argument
slice as the call leaves it (`sortedNodes` is a fresh copy; the loops write
to it alone). -/
def sortNodesByVoteCount (nodes : List Node) : List Node × List Node :=
  (outerLoop nodes.length 0 nodes, nodes)

/-- Positions below `i` hold vote counts at least as large as every later
position. -/
def Settled (i : Nat) (s : List Node) : Prop :=
  ∀ (k m : Nat) (a b : Node), k < i → k < m → s[k]? = some a → s[m]? = some b →
    b.VoteCount ≤ a.VoteCount

/-- Position `i` holds a vote count at least as large as the positions
strictly between `i` and `j`. -/
def Leads (i j : Nat) (s : List Node) : Prop :=
  ∀ (m : Nat) (a b : Node), i < m → m < j → s[i]? = some a → s[m]? = some b →
    b.VoteCount ≤ a.VoteCount

/-- Four nodes with 3, 7, 7 and 5 votes. -/
def nodes4 : List Node :=
  [{ Address := "n0", AvailableVotes := 0, VoteCount := 3, TokenAmount := 10 },
   { Address := "n1", AvailableVotes := 1, VoteCount := 7, TokenAmount := 20 },
   { Address := "n2", AvailableVotes := 2, VoteCount := 7, TokenAmount := 30 },
   { Address := "n3", AvailableVotes := 3, VoteCount := 5, TokenAmount := 40 }]

end Dpos

/-! ## Frame lemmas -/

theorem state_andThen_proj {σ α : Type} (p : σ → α) (r : Run σ) (f : σ → Run σ)
    (hf : ∀ s, p (f s).state = p s) : p (r.andThen f).state = p r.state := by
  cases r with
  | ok s => exact hf s
  | panic s => rfl

theorem verifyNewBlock_stamp (bc : Blockchain) (block : Block) (now : Int) :
    verifyNewBlock bc (stamp block now) = verifyNewBlock bc block := rfl

theorem adjustDifficulty_blocks (bc : Blockchain) :
    (adjustDifficulty bc).state.blocks = bc.blocks := by
  unfold adjustDifficulty
  split
  · rfl
  · split
    · split <;> rfl
    · rfl

theorem adjustDifficulty_miners (bc : Blockchain) :
    (adjustDifficulty bc).state.miners = bc.miners := by
  unfold adjustDifficulty
  split
  · rfl
  · split
    · split <;> rfl
    · rfl

theorem adjustDifficulty_config (bc : Blockchain) :
    (adjustDifficulty bc).state.config = bc.config := by
  unfold adjustDifficulty
  split
  · rfl
  · split
    · split <;> rfl
    · rfl

theorem bookkeepingRewards_blocks (bc : Blockchain) (coinBase : Int) :
    (bookkeepingRewards bc coinBase).state.blocks = bc.blocks := by
  unfold bookkeepingRewards
  split <;> rfl

theorem bookkeepingRewards_difficulty (bc : Blockchain) (coinBase : Int) :
    (bookkeepingRewards bc coinBase).state.currentDifficulty = bc.currentDifficulty := by
  unfold bookkeepingRewards
  split <;> rfl

theorem bookkeepingRewards_config (bc : Blockchain) (coinBase : Int) :
    (bookkeepingRewards bc coinBase).state.config = bc.config := by
  unfold bookkeepingRewards
  split <;> rfl

/-- What `AddBlock` does once the candidate has passed `verifyNewBlock`. -/
theorem AddBlock_of_accept (bc : Blockchain) (block : Block) (now : Int)
    (h : verifyNewBlock bc block = some true) :
    AddBlock bc block now =
      (adjustDifficulty { bc with blocks := bc.blocks ++ [stamp block now] }).andThen fun bc2 =>
      (bookkeepingRewards bc2 block.CoinBase).andThen fun bc3 =>
      .ok (notifyMiners bc3 block.CoinBase) := by
  unfold AddBlock
  simp only [verifyNewBlock_stamp, h]
  rfl

theorem AddBlock_of_reject (bc : Blockchain) (block : Block) (now : Int)
    (h : verifyNewBlock bc block = some false) : AddBlock bc block now = .ok bc := by
  unfold AddBlock
  simp only [verifyNewBlock_stamp, h]

theorem AddBlock_of_empty (bc : Blockchain) (block : Block) (now : Int)
    (h : verifyNewBlock bc block = none) : AddBlock bc block now = .panic bc := by
  unfold AddBlock
  simp only [verifyNewBlock_stamp, h]

theorem AddBlock_blocks_of_accept (bc : Blockchain) (block : Block) (now : Int)
    (h : verifyNewBlock bc block = some true) :
    (AddBlock bc block now).state.blocks = bc.blocks ++ [stamp block now] := by
  rw [AddBlock_of_accept bc block now h]
  rw [state_andThen_proj Blockchain.blocks, adjustDifficulty_blocks]
  intro s
  rw [state_andThen_proj Blockchain.blocks, bookkeepingRewards_blocks]
  intro s2
  rfl

theorem AddBlock_blocks_of_not_accept (bc : Blockchain) (block : Block) (now : Int)
    (h : verifyNewBlock bc block ≠ some true) :
    (AddBlock bc block now).state = bc := by
  cases hv : verifyNewBlock bc block with
  | none => rw [AddBlock_of_empty bc block now hv]; rfl
  | some b =>
    cases b with
    | true => exact absurd hv h
    | false => rw [AddBlock_of_reject bc block now hv]; rfl

/-- The three checks of `verifyNewBlock`, on a chain with tip `tip`. -/
theorem verifyNewBlock_eq_true_iff (bc : Blockchain) (block tip : Block)
    (htip : bc.blocks.getLast? = some tip) :
    verifyNewBlock bc block = some true ↔
      block.TargetBit.toUint64 = bc.currentDifficulty.toUint64 ∧
      block.prevBlockHash = tip.hash ∧
      hashInt block.hash < target block.TargetBit := by
  unfold verifyNewBlock
  rw [htip]
  simp only [Block.Verify]
  by_cases h1 : block.TargetBit.toUint64 = bc.currentDifficulty.toUint64
  · by_cases h2 : tip.hash = block.prevBlockHash
    · by_cases h3 : hashInt block.hash < target block.TargetBit
      · simp [h1, h2, h3]
      · simp [h1, h2, h3]
    · have h2b : ¬ block.prevBlockHash = tip.hash := fun e => h2 e.symm
      simp [h1, h2, h2b]
  · simp [h1]

/-- A passing candidate implies the chain has a tip. -/
theorem exists_tip_of_accept (bc : Blockchain) (block : Block)
    (h : verifyNewBlock bc block = some true) : ∃ tip, bc.blocks.getLast? = some tip := by
  cases hl : bc.blocks.getLast? with
  | none => simp [verifyNewBlock, hl] at h
  | some tip => exact ⟨tip, rfl⟩

/-! ## Chain linkage -/

theorem linked_append {bs : List Block} (hl : Linked bs) (tip block : Block)
    (htip : bs.getLast? = some tip) (hprev : block.prevBlockHash = tip.hash) :
    Linked (bs ++ [block]) := by
  intro i a b ha hb
  by_cases hi : i + 1 < bs.length
  · rw [List.getElem?_append_left (by omega)] at ha
    rw [List.getElem?_append_left hi] at hb
    exact hl i a b ha hb
  · have hlen : i + 1 < (bs ++ [block]).length := by
      by_contra hc
      rw [List.getElem?_eq_none (by omega)] at hb
      exact Option.noConfusion hb
    simp only [List.length_append, List.length_singleton] at hlen
    have hi2 : i + 1 = bs.length := by omega
    rw [List.getElem?_append_right (by omega)] at hb
    rw [List.getElem?_append_left (by omega)] at ha
    rw [List.getLast?_eq_getElem?] at htip
    have hidx : bs.length - 1 = i := by omega
    rw [hidx, ha] at htip
    have hb2 : block = b := by
      have : i + 1 - bs.length = 0 := by omega
      rw [this] at hb
      simpa using hb
    have ha2 : a = tip := Option.some.inj htip
    rw [← hb2, ha2]
    exact hprev

theorem linked_genesis (now : Int) (cfg : BlockchainConfig) :
    Linked (NewBlockChainNetWork cfg now).blocks := by
  intro i a b _ hb
  simp [NewBlockChainNetWork] at hb

theorem AddBlock_linked (bc : Blockchain) (block : Block) (now : Int)
    (hl : Linked bc.blocks) : Linked (AddBlock bc block now).state.blocks := by
  by_cases hv : verifyNewBlock bc block = some true
  · rw [AddBlock_blocks_of_accept bc block now hv]
    obtain ⟨tip, htip⟩ := exists_tip_of_accept bc block hv
    have h3 := (verifyNewBlock_eq_true_iff bc block tip htip).mp hv
    exact linked_append hl tip (stamp block now) htip h3.2.1
  · rw [AddBlock_blocks_of_not_accept bc block now hv]
    exact hl

theorem reachable_linked {cfg : BlockchainConfig} {bc : Blockchain}
    (h : Reachable cfg bc) : Linked bc.blocks := by
  induction h with
  | init now => exact linked_genesis now cfg
  | addBlock block now _ hstep ih =>
    have := AddBlock_linked _ block now ih
    rw [hstep] at this
    exact this
  | increaseMiner _ ih => exact ih

/-! ## Evaluation of the concrete ledgers -/

theorem AddBlock_bcA0 : AddBlock bcA0 candA 105 = .ok bcA1 := by decide!

theorem reachable_bcA1 : Reachable cfgA bcA1 :=
  Reachable.addBlock candA 105 (Reachable.init 100) AddBlock_bcA0

/-! ## C1 -/

/-- C1 (prefix integrity): in every ledger state reachable from
`NewBlockChainNetWork` by `AddBlock` and `IncreaseMiner`, for every index
`i > 0` the previous-hash stored in `blocks[i]` is the hash of `blocks[i-1]`. -/
theorem prefix_integrity (cfg : BlockchainConfig) (bc : Blockchain) (h : Reachable cfg bc)
    (i : Nat) (hpos : 0 < i) (hi : i < bc.blocks.length) :
    (bc.blocks.get ⟨i, hi⟩).prevBlockHash = (bc.blocks.get ⟨i - 1, by omega⟩).hash := by
  have hl := reachable_linked h
  apply hl (i - 1)
  · exact List.getElem?_eq_getElem _
  · have : i - 1 + 1 = i := by omega
    rw [this]
    exact List.getElem?_eq_getElem _

theorem prefix_integrity_witness :
    Reachable cfgA bcA1 ∧ 0 < 1 ∧
      (bcA1.blocks.get ⟨1, by decide!⟩).prevBlockHash =
        (bcA1.blocks.get ⟨1 - 1, by decide!⟩).hash :=
  ⟨reachable_bcA1, by decide, prefix_integrity cfgA bcA1 reachable_bcA1 1 (by decide) (by decide!)⟩

/-! ## C2 -/

/-- C2, as stated, fails: on the ledger of `cfgA` (current difficulty 20) the
candidate `candHalf`, which declares 20.5 target bits, is appended although
its declared target bits differ from the current difficulty. -/
theorem appends_iff_equal_bits_fails :
    ∃ tip, bcA0.blocks.getLast? = some tip ∧
      ¬ ((AddBlock bcA0 candHalf 105).state.blocks = bcA0.blocks ++ [stamp candHalf 105] ↔
          (candHalf.TargetBit = bcA0.currentDifficulty ∧
           candHalf.prevBlockHash = tip.hash ∧
           hashInt candHalf.hash < target candHalf.TargetBit)) :=
  ⟨GenerateGenesisBlock [] 100, rfl, by decide!⟩

/-- C2 (amended): on a ledger with tip `tip`, `AddBlock` appends the (stamped)
candidate if and only if the candidate's target bits and the current
difficulty have the same `uint64` truncation, the candidate's previous-hash
is the hash of the tip, and the candidate's digest read as an unsigned
integer is below the threshold `2^uint(256 - TargetBit)` of its own bits. -/
theorem addBlock_appends_iff (bc : Blockchain) (block tip : Block) (now : Int)
    (htip : bc.blocks.getLast? = some tip) :
    (AddBlock bc block now).state.blocks = bc.blocks ++ [stamp block now] ↔
      (block.TargetBit.toUint64 = bc.currentDifficulty.toUint64 ∧
       block.prevBlockHash = tip.hash ∧
       hashInt block.hash < target block.TargetBit) := by
  rw [← verifyNewBlock_eq_true_iff bc block tip htip]
  constructor
  · intro happ
    by_contra hv
    rw [AddBlock_blocks_of_not_accept bc block now hv] at happ
    have := congrArg List.length happ
    simp at this
  · intro hv
    exact AddBlock_blocks_of_accept bc block now hv

theorem addBlock_appends_iff_witness :
    bcA0.blocks.getLast? = some (GenerateGenesisBlock [] 100) ∧
    ((AddBlock bcA0 candHalf 105).state.blocks = bcA0.blocks ++ [stamp candHalf 105] ↔
      (candHalf.TargetBit.toUint64 = bcA0.currentDifficulty.toUint64 ∧
       candHalf.prevBlockHash = (GenerateGenesisBlock [] 100).hash ∧
       hashInt candHalf.hash < target candHalf.TargetBit)) :=
  ⟨rfl, addBlock_appends_iff bcA0 candHalf (GenerateGenesisBlock [] 100) 105 rfl⟩

/-! ## C3 -/

/-- C3 (rejection is atomic): for every ledger and every candidate that
`verifyNewBlock` refuses, `AddBlock` returns with the ledger exactly as it
was: same block sequence, same current difficulty, same miner records. -/
theorem rejection_is_atomic (bc : Blockchain) (block : Block) (now : Int)
    (h : verifyNewBlock bc (stamp block now) = some false) :
    AddBlock bc block now = .ok bc ∧
    (AddBlock bc block now).state.blocks = bc.blocks ∧
    (AddBlock bc block now).state.currentDifficulty = bc.currentDifficulty ∧
    (AddBlock bc block now).state.miners = bc.miners := by
  have hok : AddBlock bc block now = .ok bc := AddBlock_of_reject bc block now h
  rw [hok]
  exact ⟨rfl, rfl, rfl, rfl⟩

theorem rejection_is_atomic_witness :
    verifyNewBlock bcA1 (stamp candA 110) = some false ∧
    AddBlock bcA1 candA 110 = .ok bcA1 ∧
    (AddBlock bcA1 candA 110).state.blocks = bcA1.blocks ∧
    (AddBlock bcA1 candA 110).state.currentDifficulty = bcA1.currentDifficulty ∧
    (AddBlock bcA1 candA 110).state.miners = bcA1.miners :=
  ⟨by decide!, rejection_is_atomic bcA1 candA 110 (by decide!)⟩

/-! ## Threshold arithmetic -/

theorem toUint64_le (q : ℚ) (hq : 0 ≤ q) : ((Float64.toUint64 (.fin q) : ℕ) : ℝ) ≤ (q : ℝ) := by
  have h1 : Float64.toUint64 (.fin q) ≤ Int.toNat (Rat.floor q) := by
    simp only [Float64.toUint64]
    exact min_le_left _ _
  have h2 : (0 : ℤ) ≤ Rat.floor q := by
    have : (0:ℤ) ≤ ⌊q⌋ := Int.floor_nonneg.mpr hq
    exact this
  have h3 : ((Int.toNat (Rat.floor q) : ℕ) : ℤ) = Rat.floor q := Int.toNat_of_nonneg h2
  have h4 : ((Rat.floor q : ℤ) : ℚ) ≤ q := by
    have : ((⌊q⌋ : ℤ) : ℚ) ≤ q := Int.floor_le q
    exact this
  have h5 : ((Float64.toUint64 (.fin q) : ℕ) : ℚ) ≤ q := by
    calc ((Float64.toUint64 (.fin q) : ℕ) : ℚ) ≤ ((Int.toNat (Rat.floor q) : ℕ) : ℚ) := by
          exact_mod_cast h1
      _ = ((Rat.floor q : ℤ) : ℚ) := by exact_mod_cast congrArg (fun z : ℤ => (z : ℚ)) h3
      _ ≤ q := h4
  exact_mod_cast h5

theorem toUint64_neg (q : ℚ) (hq : q < 0) : Float64.toUint64 (.fin q) = 0 := by
  have h2 : Rat.floor q < 0 := by
    have : ⌊q⌋ < 0 := Int.floor_lt.mpr (by simpa using hq)
    exact this
  simp only [Float64.toUint64]
  have : Int.toNat (Rat.floor q) = 0 := Int.toNat_eq_zero.mpr (le_of_lt h2)
  rw [this]
  simp

/-- Below the integer threshold `target` is below the real `2^(256 - bits)`. -/
theorem lt_rpow_of_lt_target (n : ℕ) (q : ℚ) (h : n < target (.fin q)) :
    (n : ℝ) < (2 : ℝ) ^ ((256 : ℝ) - (q : ℝ)) := by
  simp only [target] at h
  by_cases hq : 0 ≤ 256 - q
  · have hk := toUint64_le (256 - q) hq
    have h1 : (n : ℝ) < (2 : ℝ) ^ (Float64.toUint64 (.fin (256 - q))) := by exact_mod_cast h
    have h2 : (2 : ℝ) ^ (Float64.toUint64 (.fin (256 - q))) ≤ (2 : ℝ) ^ ((256 : ℝ) - (q : ℝ)) := by
      rw [← Real.rpow_natCast]
      apply Real.rpow_le_rpow_of_exponent_le (by norm_num)
      have : (((256 - q : ℚ)) : ℝ) = (256 : ℝ) - (q : ℝ) := by push_cast; ring
      rw [← this]
      exact hk
    exact lt_of_lt_of_le h1 h2
  · rw [toUint64_neg (256 - q) (not_le.mp hq)] at h
    have hn : n = 0 := by simpa using h
    rw [hn]
    simp only [Nat.cast_zero]
    exact Real.rpow_pos_of_pos (by norm_num) _

/-! ## Accepted blocks carry a valid proof -/

theorem proven_append {bs : List Block} (hp : Proven bs) (block : Block)
    (hv : hashInt block.hash < target block.TargetBit) :
    Proven (bs ++ [block]) := by
  intro i b hb
  by_cases hi : i + 1 < bs.length
  · rw [List.getElem?_append_left hi] at hb
    exact hp i b hb
  · have hlen : i + 1 < (bs ++ [block]).length := by
      by_contra hc
      rw [List.getElem?_eq_none (by omega)] at hb
      exact Option.noConfusion hb
    simp only [List.length_append, List.length_singleton] at hlen
    rw [List.getElem?_append_right (by omega)] at hb
    have h0 : i + 1 - bs.length = 0 := by omega
    rw [h0] at hb
    have hb2 : block = b := by simpa using hb
    rw [← hb2]
    exact hv

theorem AddBlock_proven (bc : Blockchain) (block : Block) (now : Int)
    (hp : Proven bc.blocks) : Proven (AddBlock bc block now).state.blocks := by
  by_cases hv : verifyNewBlock bc block = some true
  · rw [AddBlock_blocks_of_accept bc block now hv]
    obtain ⟨tip, htip⟩ := exists_tip_of_accept bc block hv
    have h3 := (verifyNewBlock_eq_true_iff bc block tip htip).mp hv
    exact proven_append hp (stamp block now) h3.2.2
  · rw [AddBlock_blocks_of_not_accept bc block now hv]
    exact hp

theorem reachable_proven {cfg : BlockchainConfig} {bc : Blockchain}
    (h : Reachable cfg bc) : Proven bc.blocks := by
  induction h with
  | init now =>
    intro i b hb
    simp [NewBlockChainNetWork] at hb
  | addBlock block now _ hstep ih =>
    have := AddBlock_proven _ block now ih
    rw [hstep] at this
    exact this
  | increaseMiner _ ih => exact ih

/-! ## C4 -/

/-- C4 (proof validity): in every ledger state reachable from
`NewBlockChainNetWork`, every non-genesis block of the chain has a digest
that, read as an unsigned integer, is strictly below the threshold of its own
target bits: below `target`, the threshold `2^uint(256 - TargetBit)` that
`Block.Verify` is modelled with, hence, for finite target bits `q`, below the
real number `2^(256 - q)`. -/
theorem proof_validity (cfg : BlockchainConfig) (bc : Blockchain) (h : Reachable cfg bc)
    (i : Nat) (hpos : 0 < i) (hi : i < bc.blocks.length) :
    hashInt (bc.blocks.get ⟨i, hi⟩).hash < target (bc.blocks.get ⟨i, hi⟩).TargetBit ∧
    ∀ q : ℚ, (bc.blocks.get ⟨i, hi⟩).TargetBit = .fin q →
      ((hashInt (bc.blocks.get ⟨i, hi⟩).hash : ℕ) : ℝ) < (2 : ℝ) ^ ((256 : ℝ) - (q : ℝ)) := by
  have hp := reachable_proven h
  have hlt : hashInt (bc.blocks.get ⟨i, hi⟩).hash < target (bc.blocks.get ⟨i, hi⟩).TargetBit := by
    apply hp (i - 1)
    have : i - 1 + 1 = i := by omega
    rw [this]
    exact List.getElem?_eq_getElem _
  refine ⟨hlt, ?_⟩
  intro q hq
  rw [hq] at hlt
  exact lt_rpow_of_lt_target _ q hlt

theorem proof_validity_witness :
    Reachable cfgA bcA1 ∧ 0 < 1 ∧
    hashInt (bcA1.blocks.get ⟨1, by decide!⟩).hash <
      target (bcA1.blocks.get ⟨1, by decide!⟩).TargetBit ∧
    ∀ q : ℚ, (bcA1.blocks.get ⟨1, by decide!⟩).TargetBit = .fin q →
      ((hashInt (bcA1.blocks.get ⟨1, by decide!⟩).hash : ℕ) : ℝ) <
        (2 : ℝ) ^ ((256 : ℝ) - (q : ℝ)) :=
  ⟨reachable_bcA1, by decide, proof_validity cfgA bcA1 reachable_bcA1 1 (by decide) (by decide!)⟩

/-! ## C5 -/

/-- C5, as stated, fails: on the ledger `bcA1` (tip `candA`) the candidates
`candSame` and `candLate` both carry the hash of the tip as previous-hash;
`AddBlock` accepts `candSame`, whose digest repeats the digest of the tip, and
then accepts `candLate` as well, so both are in the chain. -/
theorem one_winner_as_stated_fails :
    bcA1.blocks.getLast? = some (stamp candA 105) ∧
    candSame.prevBlockHash = (stamp candA 105).hash ∧
    candLate.prevBlockHash = (stamp candA 105).hash ∧
    verifyNewBlock bcA1 candSame = some true ∧
    verifyNewBlock (AddBlock bcA1 candSame 110).state candLate = some true ∧
    (AddBlock (AddBlock bcA1 candSame 110).state candLate 111).state.blocks =
      bcA1.blocks ++ [stamp candSame 110, stamp candLate 111] := by
  decide!

/-- C5 (amended): for every ledger with tip `tip` and every two candidates
carrying the hash of `tip` as previous-hash, if `AddBlock` accepts the first
and the first's digest differs from the digest of `tip`, then `AddBlock`
applied next to the second rejects it and returns the ledger unchanged, so
the chain holds the first candidate and not a second block for that height. -/
theorem one_winner_per_height (bc : Blockchain) (b1 b2 tip : Block) (t1 t2 : Int)
    (_htip : bc.blocks.getLast? = some tip)
    (_h1 : b1.prevBlockHash = tip.hash) (h2 : b2.prevBlockHash = tip.hash)
    (hacc : verifyNewBlock bc b1 = some true) (hne : b1.hash ≠ tip.hash) :
    verifyNewBlock (AddBlock bc b1 t1).state b2 = some false ∧
    AddBlock (AddBlock bc b1 t1).state b2 t2 = .ok (AddBlock bc b1 t1).state ∧
    (AddBlock (AddBlock bc b1 t1).state b2 t2).state.blocks = bc.blocks ++ [stamp b1 t1] := by
  have hblocks := AddBlock_blocks_of_accept bc b1 t1 hacc
  have hlast : (AddBlock bc b1 t1).state.blocks.getLast? = some (stamp b1 t1) := by
    rw [hblocks]
    simp
  have hrej : verifyNewBlock (AddBlock bc b1 t1).state b2 = some false := by
    unfold verifyNewBlock
    rw [hlast]
    by_cases hd : b2.TargetBit.toUint64 = (AddBlock bc b1 t1).state.currentDifficulty.toUint64
    · have hh : (stamp b1 t1).hash ≠ b2.prevBlockHash := by
        rw [h2]
        exact hne
      simp [hd, hh]
    · simp [hd]
  have hok := AddBlock_of_reject (AddBlock bc b1 t1).state b2 t2 hrej
  refine ⟨hrej, hok, ?_⟩
  rw [hok]
  exact hblocks

theorem one_winner_per_height_witness :
    bcA0.blocks.getLast? = some (GenerateGenesisBlock [] 100) ∧
    candA.prevBlockHash = (GenerateGenesisBlock [] 100).hash ∧
    candB.prevBlockHash = (GenerateGenesisBlock [] 100).hash ∧
    verifyNewBlock bcA0 candA = some true ∧
    candA.hash ≠ (GenerateGenesisBlock [] 100).hash ∧
    verifyNewBlock (AddBlock bcA0 candA 105).state candB = some false ∧
    AddBlock (AddBlock bcA0 candA 105).state candB 106 = .ok (AddBlock bcA0 candA 105).state ∧
    (AddBlock (AddBlock bcA0 candA 105).state candB 106).state.blocks =
      bcA0.blocks ++ [stamp candA 105] :=
  ⟨rfl, rfl, rfl, by decide!, by decide,
    one_winner_per_height bcA0 candA candB (GenerateGenesisBlock [] 100) 105 106 rfl rfl rfl
      (by decide!) (by decide)⟩

/-! ## Difficulty retargeting -/

theorem adjustDifficulty_of_no_fire (bc : Blockchain)
    (hN : bc.config.ModifyDifficultyBlockNumber ≠ 0)
    (hfire : bc.blocks.length % bc.config.ModifyDifficultyBlockNumber ≠ 0) :
    adjustDifficulty bc = .ok bc := by
  unfold adjustDifficulty
  simp [hN, hfire]

theorem adjustDifficulty_of_fire (bc : Blockchain) (last : Block)
    (hN : bc.config.ModifyDifficultyBlockNumber ≠ 0)
    (hfire : bc.blocks.length % bc.config.ModifyDifficultyBlockNumber = 0)
    (hlast : bc.blocks.getLast? = some last) :
    ∃ first, bc.blocks[bc.blocks.length - bc.config.ModifyDifficultyBlockNumber]? = some first ∧
      adjustDifficulty bc = .ok { bc with currentDifficulty := (bc.currentDifficulty.mul
          (clampedRatio (theoryTime bc.config) (actuallyTime last first))) } := by
  have hlen : 0 < bc.blocks.length := by
    cases hb : bc.blocks with
    | nil => rw [hb] at hlast; simp at hlast
    | cons a t => simp
  have hle : bc.config.ModifyDifficultyBlockNumber ≤ bc.blocks.length :=
    Nat.le_of_dvd hlen (Nat.dvd_of_mod_eq_zero hfire)
  have hidx : uintSub bc.blocks.length bc.config.ModifyDifficultyBlockNumber =
      bc.blocks.length - bc.config.ModifyDifficultyBlockNumber := by
    simp [uintSub, hle]
  have hlt : bc.blocks.length - bc.config.ModifyDifficultyBlockNumber < bc.blocks.length := by
    omega
  refine ⟨bc.blocks[bc.blocks.length - bc.config.ModifyDifficultyBlockNumber],
    List.getElem?_eq_getElem hlt, ?_⟩
  unfold adjustDifficulty
  rw [hidx, hlast, List.getElem?_eq_getElem hlt]
  simp [hN, hfire]

/-- The clamp of `adjustDifficulty` on a non-zero observed time. -/
theorem clampedRatio_eq_clamp (theory : Nat) (actual : Int) (ha : actual ≠ 0) :
    clampedRatio theory actual =
      .fin (max (1 / 2) (min ((theory : ℚ) / (actual : ℚ)) (11 / 10))) := by
  unfold clampedRatio
  rw [if_neg ha]
  simp only []
  by_cases h1 : (theory : ℚ) / (actual : ℚ) > 11 / 10
  · rw [if_pos h1, min_eq_right (le_of_lt h1), max_eq_right (by norm_num)]
  · rw [if_neg h1, min_eq_left (not_lt.mp h1)]
    by_cases h2 : (theory : ℚ) / (actual : ℚ) < 1 / 2
    · rw [if_pos h2, max_eq_left (le_of_lt h2)]
    · rw [if_neg h2, max_eq_right (not_lt.mp h2)]

theorem AddBlock_difficulty_of_accept (bc : Blockchain) (block : Block) (now : Int)
    (h : verifyNewBlock bc block = some true) :
    (AddBlock bc block now).state.currentDifficulty =
      (adjustDifficulty { bc with blocks := bc.blocks ++ [stamp block now] }).state.currentDifficulty := by
  rw [AddBlock_of_accept bc block now h]
  rw [state_andThen_proj Blockchain.currentDifficulty]
  intro s
  rw [state_andThen_proj Blockchain.currentDifficulty, bookkeepingRewards_difficulty]
  intro s2
  rfl

/-! ## C6 -/

/-- C6 (retarget bounds): whenever `adjustDifficulty` fires with a positive
observed window time `actual`, the new difficulty is
`old * clamp(theoretical / actual, 0.5, 1.1)`; in particular
`actual = 2 * theoretical` gives `old * 0.5` and `actual = 0.5 * theoretical`
gives `old * 1.1` (difficulty and ratio as exact rationals). -/
theorem retarget_bounds (bc : Blockchain) (last first : Block) (d : ℚ)
    (hN : bc.config.ModifyDifficultyBlockNumber ≠ 0)
    (hfire : bc.blocks.length % bc.config.ModifyDifficultyBlockNumber = 0)
    (hlast : bc.blocks.getLast? = some last)
    (hfirst : bc.blocks[bc.blocks.length - bc.config.ModifyDifficultyBlockNumber]? = some first)
    (hd : bc.currentDifficulty = .fin d)
    (hpos : 0 < actuallyTime last first) :
    adjustDifficulty bc = .ok { bc with currentDifficulty := .fin (d *
        max (1 / 2) (min ((theoryTime bc.config : ℚ) / (actuallyTime last first : ℚ)) (11 / 10))) } ∧
    (actuallyTime last first = 2 * (theoryTime bc.config : Int) →
      adjustDifficulty bc = .ok { bc with currentDifficulty := .fin (d * (1 / 2)) }) ∧
    (2 * actuallyTime last first = (theoryTime bc.config : Int) →
      adjustDifficulty bc = .ok { bc with currentDifficulty := .fin (d * (11 / 10)) }) := by
  obtain ⟨first2, hfirst2, hadj⟩ := adjustDifficulty_of_fire bc last hN hfire hlast
  have hsame : first2 = first := Option.some.inj (hfirst2.symm.trans hfirst)
  rw [hsame] at hadj
  have hne : actuallyTime last first ≠ 0 := ne_of_gt hpos
  rw [clampedRatio_eq_clamp _ _ hne, hd] at hadj
  have hposq : (0 : ℚ) < (actuallyTime last first : ℚ) := by exact_mod_cast hpos
  refine ⟨hadj, ?_, ?_⟩
  · intro h2
    have hq : (actuallyTime last first : ℚ) = 2 * (theoryTime bc.config : ℚ) := by
      exact_mod_cast h2
    have hr : (theoryTime bc.config : ℚ) / (actuallyTime last first : ℚ) = 1 / 2 := by
      rw [div_eq_iff (ne_of_gt hposq), hq]
      ring
    rw [hadj, hr]
    norm_num [Float64.mul]
  · intro h2
    have hq : 2 * (actuallyTime last first : ℚ) = (theoryTime bc.config : ℚ) := by
      exact_mod_cast h2
    have hr : (theoryTime bc.config : ℚ) / (actuallyTime last first : ℚ) = 2 := by
      rw [div_eq_iff (ne_of_gt hposq), ← hq]
    rw [hadj, hr]
    norm_num [Float64.mul]

theorem retarget_bounds_witness :
    bcW3.config.ModifyDifficultyBlockNumber ≠ 0 ∧
    bcW3.blocks.length % bcW3.config.ModifyDifficultyBlockNumber = 0 ∧
    bcW3.blocks.getLast? = some (stamp candW3 130) ∧
    bcW3.blocks[bcW3.blocks.length - bcW3.config.ModifyDifficultyBlockNumber]? =
      some (stamp candW2 110) ∧
    bcW3.currentDifficulty = .fin 10 ∧
    0 < actuallyTime (stamp candW3 130) (stamp candW2 110) ∧
    (adjustDifficulty bcW3 = .ok { bcW3 with currentDifficulty := .fin (10 *
        max (1 / 2) (min ((theoryTime bcW3.config : ℚ) /
          (actuallyTime (stamp candW3 130) (stamp candW2 110) : ℚ)) (11 / 10))) } ∧
    (actuallyTime (stamp candW3 130) (stamp candW2 110) = 2 * (theoryTime bcW3.config : Int) →
      adjustDifficulty bcW3 = .ok { bcW3 with currentDifficulty := .fin (10 * (1 / 2)) }) ∧
    (2 * actuallyTime (stamp candW3 130) (stamp candW2 110) = (theoryTime bcW3.config : Int) →
      adjustDifficulty bcW3 = .ok { bcW3 with currentDifficulty := .fin (10 * (11 / 10)) })) :=
  ⟨by decide!, by decide!, by decide!, by decide!, by decide!, by decide!,
    retarget_bounds bcW3 (stamp candW3 130) (stamp candW2 110) 10
      (by decide!) (by decide!) (by decide!) (by decide!) (by decide!) (by decide!)⟩

/-! ## C7 -/

/-- C7, as stated, fails: on the four-block ledger `bcW3` (window 2, blocks
accepted at 0, 100, 110, 130) `adjustDifficulty` fires; the block two
positions before the tip was accepted at 100, so the stated observed time is
30, which would turn the difficulty 10 into 20/3, but `adjustDifficulty`
measures from the block accepted at 110 (observed time 20) and leaves 10. -/
theorem observed_time_as_stated_fails :
    bcW3.config.ModifyDifficultyBlockNumber ≠ 0 ∧
    bcW3.blocks.length % bcW3.config.ModifyDifficultyBlockNumber = 0 ∧
    specObservedTime bcW3 = some 30 ∧
    bcW3.currentDifficulty.mul
      (clampedRatio (bcW3.config.OutBlockTime * bcW3.config.ModifyDifficultyBlockNumber) 30) =
      .fin (20 / 3) ∧
    adjustDifficulty bcW3 = .ok { bcW3 with currentDifficulty := .fin 10 } ∧
    adjustDifficulty bcW3 ≠ .ok { bcW3 with currentDifficulty := (bcW3.currentDifficulty.mul
      (clampedRatio (bcW3.config.OutBlockTime * bcW3.config.ModifyDifficultyBlockNumber) 30)) } := by
  decide!

/-- C7 (amended): when `adjustDifficulty` fires on a non-empty chain, the
observed time it uses is the acceptance timestamp of the tip minus that of
`blocks[len - windowSize]`, the block `windowSize - 1` positions before the
tip (an `int64` difference), and the theoretical time is
`OutBlockTime * windowSize` (a `uint` product); the new difficulty is the old
one times the clamped quotient of the two. -/
theorem retarget_times (bc : Blockchain)
    (hN : bc.config.ModifyDifficultyBlockNumber ≠ 0)
    (hfire : bc.blocks.length % bc.config.ModifyDifficultyBlockNumber = 0)
    (hne : bc.blocks ≠ []) :
    ∃ last first,
      bc.blocks.reverse[0]? = some last ∧
      bc.blocks.reverse[bc.config.ModifyDifficultyBlockNumber - 1]? = some first ∧
      bc.blocks[bc.blocks.length - bc.config.ModifyDifficultyBlockNumber]? = some first ∧
      adjustDifficulty bc = .ok { bc with currentDifficulty := (bc.currentDifficulty.mul
        (clampedRatio
          ((bc.config.OutBlockTime * bc.config.ModifyDifficultyBlockNumber) % 2 ^ 64)
          (wrapInt64 (last.ActualTimestamp - first.ActualTimestamp)))) } := by
  have hlen : 0 < bc.blocks.length := List.length_pos.mpr hne
  have hlast : bc.blocks.getLast? = some (bc.blocks.getLast hne) := List.getLast?_eq_getLast _ hne
  obtain ⟨first, hfirst, hadj⟩ :=
    adjustDifficulty_of_fire bc (bc.blocks.getLast hne) hN hfire hlast
  have hle : bc.config.ModifyDifficultyBlockNumber ≤ bc.blocks.length :=
    Nat.le_of_dvd hlen (Nat.dvd_of_mod_eq_zero hfire)
  refine ⟨bc.blocks.getLast hne, first, ?_, ?_, hfirst, hadj⟩
  · rw [List.getElem?_reverse hlen, Nat.sub_zero, ← List.getLast?_eq_getElem?, hlast]
  · have hpos : 0 < bc.config.ModifyDifficultyBlockNumber := Nat.pos_of_ne_zero hN
    rw [List.getElem?_reverse (by omega), ← hfirst]
    congr 1
    omega

theorem retarget_times_witness :
    bcW3.config.ModifyDifficultyBlockNumber ≠ 0 ∧
    bcW3.blocks.length % bcW3.config.ModifyDifficultyBlockNumber = 0 ∧
    bcW3.blocks ≠ [] ∧
    ∃ last first,
      bcW3.blocks.reverse[0]? = some last ∧
      bcW3.blocks.reverse[bcW3.config.ModifyDifficultyBlockNumber - 1]? = some first ∧
      bcW3.blocks[bcW3.blocks.length - bcW3.config.ModifyDifficultyBlockNumber]? = some first ∧
      adjustDifficulty bcW3 = .ok { bcW3 with currentDifficulty := (bcW3.currentDifficulty.mul
        (clampedRatio
          ((bcW3.config.OutBlockTime * bcW3.config.ModifyDifficultyBlockNumber) % 2 ^ 64)
          (wrapInt64 (last.ActualTimestamp - first.ActualTimestamp)))) } :=
  ⟨by decide!, by decide!, by decide!,
    retarget_times bcW3 (by decide!) (by decide!) (by decide!)⟩

/-! ## C8 -/

/-- C8 (retarget only at a window boundary): for every ledger with a non-zero
window size and every accepted candidate, `AddBlock` leaves the current
difficulty unchanged unless the chain length after the append is a multiple
of the window size; at such a length the difficulty is recomputed, once, from
the appended block and the block at index `length - windowSize`. -/
theorem retarget_only_at_window (bc : Blockchain) (block : Block) (now : Int)
    (hN : bc.config.ModifyDifficultyBlockNumber ≠ 0)
    (hacc : verifyNewBlock bc block = some true) :
    ((bc.blocks.length + 1) % bc.config.ModifyDifficultyBlockNumber ≠ 0 →
      (AddBlock bc block now).state.currentDifficulty = bc.currentDifficulty) ∧
    ((AddBlock bc block now).state.currentDifficulty ≠ bc.currentDifficulty →
      (bc.blocks.length + 1) % bc.config.ModifyDifficultyBlockNumber = 0) ∧
    ((bc.blocks.length + 1) % bc.config.ModifyDifficultyBlockNumber = 0 →
      ∃ first,
        (bc.blocks ++ [stamp block now])[bc.blocks.length + 1 -
          bc.config.ModifyDifficultyBlockNumber]? = some first ∧
        (AddBlock bc block now).state.currentDifficulty =
          bc.currentDifficulty.mul
            (clampedRatio (theoryTime bc.config) (actuallyTime (stamp block now) first))) := by
  have hdiff := AddBlock_difficulty_of_accept bc block now hacc
  generalize hbc1 : ({ bc with blocks := bc.blocks ++ [stamp block now] } : Blockchain) = bc1
    at hdiff
  have hcfg : bc1.config = bc.config := by rw [← hbc1]
  have hcur : bc1.currentDifficulty = bc.currentDifficulty := by rw [← hbc1]
  have hblocks : bc1.blocks = bc.blocks ++ [stamp block now] := by rw [← hbc1]
  have hlen : bc1.blocks.length = bc.blocks.length + 1 := by rw [hblocks]; simp
  have hN1 : bc1.config.ModifyDifficultyBlockNumber ≠ 0 := by rw [hcfg]; exact hN
  have hkeep : (bc.blocks.length + 1) % bc.config.ModifyDifficultyBlockNumber ≠ 0 →
      (AddBlock bc block now).state.currentDifficulty = bc.currentDifficulty := by
    intro hmod
    have hmod1 : bc1.blocks.length % bc1.config.ModifyDifficultyBlockNumber ≠ 0 := by
      rw [hlen, hcfg]
      exact hmod
    rw [hdiff, adjustDifficulty_of_no_fire bc1 hN1 hmod1]
    exact hcur
  refine ⟨hkeep, ?_, ?_⟩
  · intro hch
    by_contra hmod
    exact hch (hkeep hmod)
  · intro hmod
    have hmod1 : bc1.blocks.length % bc1.config.ModifyDifficultyBlockNumber = 0 := by
      rw [hlen, hcfg]
      exact hmod
    have hlast1 : bc1.blocks.getLast? = some (stamp block now) := by
      rw [hblocks]
      simp
    obtain ⟨first, hfirst, hadj⟩ := adjustDifficulty_of_fire bc1 (stamp block now) hN1 hmod1 hlast1
    rw [hlen, hcfg, hblocks] at hfirst
    refine ⟨first, hfirst, ?_⟩
    rw [hdiff, hadj]
    show bc1.currentDifficulty.mul _ = _
    rw [hcur, hcfg]

theorem retarget_only_at_window_witness :
    bcA0.config.ModifyDifficultyBlockNumber ≠ 0 ∧
    verifyNewBlock bcA0 candA = some true ∧
    ((bcA0.blocks.length + 1) % bcA0.config.ModifyDifficultyBlockNumber ≠ 0 →
      (AddBlock bcA0 candA 105).state.currentDifficulty = bcA0.currentDifficulty) ∧
    ((AddBlock bcA0 candA 105).state.currentDifficulty ≠ bcA0.currentDifficulty →
      (bcA0.blocks.length + 1) % bcA0.config.ModifyDifficultyBlockNumber = 0) ∧
    ((bcA0.blocks.length + 1) % bcA0.config.ModifyDifficultyBlockNumber = 0 →
      ∃ first,
        (bcA0.blocks ++ [stamp candA 105])[bcA0.blocks.length + 1 -
          bcA0.config.ModifyDifficultyBlockNumber]? = some first ∧
        (AddBlock bcA0 candA 105).state.currentDifficulty =
          bcA0.currentDifficulty.mul
            (clampedRatio (theoryTime bcA0.config) (actuallyTime (stamp candA 105) first))) :=
  ⟨by decide!, by decide!, retarget_only_at_window bcA0 candA 105 (by decide!) (by decide!)⟩

/-! ## Rewards and the miner registry -/

theorem notifyFrom_getElem? (sponsor : Int) (ms : List Miner) (k i : Nat) (m : Miner)
    (h : (notifyFrom sponsor k ms)[i]? = some m) :
    ∃ m0, ms[i]? = some m0 ∧ m.Id = m0.Id ∧ m.Balance = m0.Balance := by
  induction ms generalizing k i with
  | nil => simp [notifyFrom] at h
  | cons a t ih =>
    cases i with
    | zero =>
      simp only [notifyFrom, List.getElem?_cons_zero, Option.some.injEq] at h
      refine ⟨a, by simp, ?_⟩
      rw [← h]
      split <;> exact ⟨rfl, rfl⟩
    | succ j =>
      simp only [notifyFrom, List.getElem?_cons_succ] at h
      obtain ⟨m0, hm0, hid⟩ := ih (k + 1) j h
      exact ⟨m0, by simpa using hm0, hid⟩

theorem notifyFrom_length (sponsor : Int) (ms : List Miner) (k : Nat) :
    (notifyFrom sponsor k ms).length = ms.length := by
  induction ms generalizing k with
  | nil => rfl
  | cons a t ih => simp [notifyFrom, ih]

/-- What an accepting `AddBlock` that returns has done to the registry. -/
theorem AddBlock_ok_of_accept (bc bc2 : Blockchain) (block : Block) (now : Int)
    (hacc : verifyNewBlock bc block = some true) (hok : AddBlock bc block now = .ok bc2) :
    0 ≤ block.CoinBase ∧ block.CoinBase.toNat < bc.miners.length ∧
    bc2.config = bc.config ∧
    bc2.miners = notifyFrom block.CoinBase 0 (bc.miners.modify
      (fun m => { m with Balance := (m.Balance + bc.config.BookkeepingIncentives) % 2 ^ 64 })
      block.CoinBase.toNat) := by
  rw [AddBlock_of_accept bc block now hacc] at hok
  have hm := adjustDifficulty_miners { bc with blocks := bc.blocks ++ [stamp block now] }
  have hc := adjustDifficulty_config { bc with blocks := bc.blocks ++ [stamp block now] }
  cases hadj : adjustDifficulty { bc with blocks := bc.blocks ++ [stamp block now] } with
  | panic s => rw [hadj] at hok; exact Run.noConfusion hok
  | ok s1 =>
    rw [hadj] at hok hm hc
    simp only [Run.andThen, Run.state] at hok hm hc
    unfold bookkeepingRewards at hok
    by_cases hr : 0 ≤ block.CoinBase ∧ block.CoinBase.toNat < s1.miners.length
    · rw [if_pos hr] at hok
      simp only [Run.andThen, Run.ok.injEq] at hok
      rw [hm] at hr
      refine ⟨hr.1, hr.2, ?_, ?_⟩
      · rw [← hok]
        exact hc
      · rw [← hok]
        simp only [notifyMiners]
        rw [hm, hc]
    · rw [if_neg hr] at hok
      exact Run.noConfusion hok

theorem accounted_init (cfg : BlockchainConfig) (now : Int) :
    Accounted cfg [] (NewBlockChainNetWork cfg now) := by
  refine ⟨rfl, ?_, ?_⟩
  · intro i m hm
    simp only [NewBlockChainNetWork, List.getElem?_map] at hm
    by_cases hi : i < cfg.MinerCount.toNat
    · rw [List.getElem?_range hi] at hm
      simp only [Option.map_some', Option.some.injEq] at hm
      rw [← hm]
      simp
    · rw [List.getElem?_eq_none (by simpa using hi)] at hm
      simp at hm
  · intro w hw
    simp at hw

theorem accounted_increaseMiner {cfg : BlockchainConfig} {ws : List Int} {bc : Blockchain}
    (h : Accounted cfg ws bc) : Accounted cfg ws (IncreaseMiner bc) := by
  obtain ⟨hcfg, hbal, hreg⟩ := h
  refine ⟨hcfg, ?_, ?_⟩
  · intro i m hm
    simp only [IncreaseMiner] at hm
    by_cases hi : i < bc.miners.length
    · rw [List.getElem?_append_left hi] at hm
      exact hbal i m hm
    · by_cases hi2 : i = bc.miners.length
      · rw [List.getElem?_append_right (by omega), hi2] at hm
        simp only [Nat.sub_self, List.getElem?_cons_zero, Option.some.injEq] at hm
        rw [← hm, hi2]
        refine ⟨rfl, ?_⟩
        have hcount : ws.count (bc.miners.length : Int) = 0 := by
          apply List.count_eq_zero.mpr
          intro hmem
          have := (hreg _ hmem).2
          simp at this
        simp [hcount]
      · rw [List.getElem?_eq_none (by simp; omega)] at hm
        simp at hm
  · intro w hw
    have := hreg w hw
    simp only [IncreaseMiner, List.length_append, List.length_singleton]
    exact ⟨this.1, by omega⟩

theorem accounted_accept {cfg : BlockchainConfig} {ws : List Int} {bc bc2 : Blockchain}
    (h : Accounted cfg ws bc) (block : Block) (now : Int)
    (hacc : verifyNewBlock bc block = some true) (hok : AddBlock bc block now = .ok bc2) :
    Accounted cfg (ws ++ [block.CoinBase]) bc2 := by
  obtain ⟨hcfg, hbal, hreg⟩ := h
  obtain ⟨hc0, hclt, hcfg2, hminers⟩ := AddBlock_ok_of_accept bc bc2 block now hacc hok
  have hlen : bc2.miners.length = bc.miners.length := by
    rw [hminers, notifyFrom_length, List.length_modify]
  have hcb : ((block.CoinBase.toNat : Nat) : Int) = block.CoinBase := Int.toNat_of_nonneg hc0
  refine ⟨hcfg2.trans hcfg, ?_, ?_⟩
  · intro i m hm
    rw [hminers] at hm
    obtain ⟨m0, hm0, hid, hb⟩ := notifyFrom_getElem? _ _ 0 i m hm
    rw [List.getElem?_modify] at hm0
    cases hold : bc.miners[i]? with
    | none => rw [hold] at hm0; simp at hm0
    | some mo =>
      rw [hold] at hm0
      simp only [Option.map_eq_map, Option.map_some', Option.some.injEq] at hm0
      obtain ⟨hido, hbo⟩ := hbal i mo hold
      rw [List.count_append]
      by_cases hi : block.CoinBase.toNat = i
      · rw [if_pos hi] at hm0
        have hci : block.CoinBase = (i : Int) := by rw [← hcb, hi]
        refine ⟨?_, ?_⟩
        · rw [hid, ← hm0]
          exact hido
        · rw [hb, ← hm0]
          show (mo.Balance + bc.config.BookkeepingIncentives) % 2 ^ 64 = _
          rw [hbo, hcfg, hci]
          simp only [List.count_singleton, beq_self_eq_true, if_true]
          rw [Nat.add_mul, Nat.one_mul]
          exact Nat.mod_add_mod _ _ _
      · rw [if_neg hi] at hm0
        have hci : block.CoinBase ≠ (i : Int) := by
          intro hc
          apply hi
          rw [hc]
          simp
        refine ⟨?_, ?_⟩
        · rw [hid, ← hm0]
          exact hido
        · rw [hb, ← hm0, hbo]
          have : List.count (i : Int) [block.CoinBase] = 0 :=
            List.count_eq_zero.mpr (by simpa using fun hc => hci hc.symm)
          rw [this, Nat.add_zero]
  · intro w hw
    rw [hlen]
    rcases List.mem_append.mp hw with hw | hw
    · exact hreg w hw
    · have : w = block.CoinBase := by simpa using hw
      rw [this]
      exact ⟨hc0, hclt⟩

theorem runsTo_accounted {cfg : BlockchainConfig} {ws : List Int} {bc : Blockchain}
    (h : RunsTo cfg ws bc) : Accounted cfg ws bc := by
  induction h with
  | init now => exact accounted_init cfg now
  | accept block now _ hacc hok ih => exact accounted_accept ih block now hacc hok
  | reject block now _ hrej hok ih =>
    rw [AddBlock_of_reject _ block now hrej] at hok
    rw [← Run.ok.inj hok]
    exact ih
  | increaseMiner _ ih => exact accounted_increaseMiner ih

theorem sum_balances_eq (l : List Miner) (f : Nat → Nat)
    (h : ∀ (i : Nat) (m : Miner), l[i]? = some m → m.Balance = f i) :
    (l.map Miner.Balance).sum = ∑ i in Finset.range l.length, f i := by
  induction l generalizing f with
  | nil => simp
  | cons a t ih =>
    have h0 : a.Balance = f 0 := h 0 a (by simp)
    have ht : ∀ (i : Nat) (m : Miner), t[i]? = some m → m.Balance = f (i + 1) := by
      intro i m hm
      exact h (i + 1) m (by simpa using hm)
    rw [List.map_cons, List.sum_cons, ih (fun i => f (i + 1)) ht, List.length_cons,
      Finset.sum_range_succ', h0]
    omega

theorem sum_count_range (n : Nat) (ws : List Int)
    (h : ∀ w ∈ ws, 0 ≤ w ∧ w.toNat < n) :
    ∑ i in Finset.range n, ws.count (i : Int) = ws.length := by
  induction ws with
  | nil => simp
  | cons w t ih =>
    have hw := h w (List.mem_cons_self _ _)
    have ht : ∀ v ∈ t, 0 ≤ v ∧ v.toNat < n := fun v hv => h v (List.mem_cons_of_mem _ hv)
    have hone : ∑ i in Finset.range n, (if w = (i : Int) then 1 else 0) = 1 := by
      rw [Finset.sum_eq_single w.toNat]
      · rw [if_pos (Int.toNat_of_nonneg hw.1).symm]
      · intro b _ hb
        rw [if_neg]
        intro hwb
        apply hb
        rw [hwb]
        simp
      · intro hnot
        exact absurd (Finset.mem_range.mpr hw.2) hnot
    have hsplit : ∀ i : Nat, (w :: t).count (i : Int) =
        t.count (i : Int) + (if w = (i : Int) then 1 else 0) := by
      intro i
      rw [List.count_cons]
      simp only [beq_iff_eq]
    simp only [hsplit]
    rw [Finset.sum_add_distrib, ih ht, hone, List.length_cons]

theorem accounted_exact {cfg : BlockchainConfig} {ws : List Int} {bc : Blockchain}
    (h : Accounted cfg ws bc) (hno : ws.length * cfg.BookkeepingIncentives < 2 ^ 64)
    (i : Nat) (m : Miner) (hm : bc.miners[i]? = some m) :
    m.Balance = ws.count (i : Int) * cfg.BookkeepingIncentives := by
  rw [(h.2.1 i m hm).2]
  apply Nat.mod_eq_of_lt
  have hle : ws.count (i : Int) ≤ ws.length := List.count_le_length _ _
  calc ws.count (i : Int) * cfg.BookkeepingIncentives
      ≤ ws.length * cfg.BookkeepingIncentives := Nat.mul_le_mul_right _ hle
    _ < 2 ^ 64 := hno

theorem AddBlock_bcO0 : AddBlock bcO0 candA 105 = .ok bcO1 := by decide!

theorem AddBlock_bcO1 : AddBlock bcO1 candLate 111 = .ok bcO2 := by decide!

theorem runsTo_bcO2 : RunsTo cfgO [0, 0] bcO2 :=
  RunsTo.accept candLate 111
    (RunsTo.accept candA 105 (RunsTo.init 100) (by decide!) AddBlock_bcO0)
    (by decide!) AddBlock_bcO1

/-! ## C9 -/

/-- C9, as stated, fails: with an incentive of `2^63` and one miner, after the
two candidates `candA` and `candLate` of miner 0 are accepted the balance of
miner 0 is 0, not `2 * 2^63`, and so is the sum of all balances. -/
theorem reward_accounting_as_stated_fails :
    RunsTo cfgO [0, 0] bcO2 ∧
    ∃ m, bcO2.miners = [m] ∧
      m.Balance ≠ List.count m.Id [0, 0] * cfgO.BookkeepingIncentives ∧
      (bcO2.miners.map Miner.Balance).sum ≠ [(0 : Int), 0].length * cfgO.BookkeepingIncentives :=
  ⟨runsTo_bcO2, { Id := 0, Balance := 0, waitForSignal := 0 }, by decide!, by decide!, by decide!⟩

/-- C9 (amended): for every run from `NewBlockChainNetWork` in which the
candidates with coinbases `ws = c_1..c_M` are accepted by `AddBlock`, each
miner's balance is (number of accepted blocks whose coinbase is its id) times
`BookkeepingIncentives`, reduced modulo `2^64`; when
`M * BookkeepingIncentives < 2^64` nothing wraps: each balance is exactly that
product and the sum of all balances is `M * BookkeepingIncentives`. -/
theorem reward_accounting (cfg : BlockchainConfig) (ws : List Int) (bc : Blockchain)
    (h : RunsTo cfg ws bc) :
    (∀ m ∈ bc.miners, m.Balance = (ws.count m.Id * cfg.BookkeepingIncentives) % 2 ^ 64) ∧
    (ws.length * cfg.BookkeepingIncentives < 2 ^ 64 →
      (∀ m ∈ bc.miners, m.Balance = ws.count m.Id * cfg.BookkeepingIncentives) ∧
      (bc.miners.map Miner.Balance).sum = ws.length * cfg.BookkeepingIncentives) := by
  have hacc := runsTo_accounted h
  refine ⟨?_, ?_⟩
  · intro m hm
    obtain ⟨i, hi, hget⟩ := List.getElem_of_mem hm
    have hsome : bc.miners[i]? = some m := by rw [List.getElem?_eq_getElem hi, hget]
    obtain ⟨hid, hbal⟩ := hacc.2.1 i m hsome
    rw [hid]
    exact hbal
  · intro hno
    refine ⟨?_, ?_⟩
    · intro m hm
      obtain ⟨i, hi, hget⟩ := List.getElem_of_mem hm
      have hsome : bc.miners[i]? = some m := by rw [List.getElem?_eq_getElem hi, hget]
      rw [(hacc.2.1 i m hsome).1]
      exact accounted_exact hacc hno i m hsome
    · rw [sum_balances_eq bc.miners (fun i => ws.count (i : Int) * cfg.BookkeepingIncentives)
        (accounted_exact hacc hno), ← Finset.sum_mul, sum_count_range _ ws hacc.2.2]

theorem reward_accounting_witness :
    RunsTo cfgA [0] bcA1 ∧
    (∀ m ∈ bcA1.miners, m.Balance = (List.count m.Id [0] * cfgA.BookkeepingIncentives) % 2 ^ 64) ∧
    ([(0 : Int)].length * cfgA.BookkeepingIncentives < 2 ^ 64 →
      (∀ m ∈ bcA1.miners, m.Balance = List.count m.Id [0] * cfgA.BookkeepingIncentives) ∧
      (bcA1.miners.map Miner.Balance).sum = [(0 : Int)].length * cfgA.BookkeepingIncentives) :=
  ⟨RunsTo.accept candA 105 (RunsTo.init 100) (by decide!) AddBlock_bcA0,
    reward_accounting cfgA [0] bcA1
      (RunsTo.accept candA 105 (RunsTo.init 100) (by decide!) AddBlock_bcA0)⟩

/-- The registry after `AddBlock`, whatever its outcome: untouched, or
credited at the coinbase and notified. -/
theorem AddBlock_miners_cases (bc : Blockchain) (block : Block) (now : Int) :
    (AddBlock bc block now).state.miners = bc.miners ∨
    (AddBlock bc block now).state.miners = notifyFrom block.CoinBase 0 (bc.miners.modify
      (fun m => { m with Balance := (m.Balance + bc.config.BookkeepingIncentives) % 2 ^ 64 })
      block.CoinBase.toNat) := by
  by_cases hacc : verifyNewBlock bc block = some true
  · rw [AddBlock_of_accept bc block now hacc]
    have hm := adjustDifficulty_miners { bc with blocks := bc.blocks ++ [stamp block now] }
    have hc := adjustDifficulty_config { bc with blocks := bc.blocks ++ [stamp block now] }
    cases hadj : adjustDifficulty { bc with blocks := bc.blocks ++ [stamp block now] } with
    | panic s =>
      rw [hadj] at hm
      left
      exact hm
    | ok s1 =>
      rw [hadj] at hm hc
      simp only [Run.andThen, Run.state] at hm hc ⊢
      unfold bookkeepingRewards
      by_cases hr : 0 ≤ block.CoinBase ∧ block.CoinBase.toNat < s1.miners.length
      · rw [if_pos hr]
        right
        simp only [Run.andThen, Run.state, notifyMiners]
        rw [hm, hc]
      · rw [if_neg hr]
        left
        exact hm
  · left
    rw [AddBlock_blocks_of_not_accept bc block now hacc]

/-! ## C10 -/

/-- C10, as stated, fails: on the reachable ledger `bcO1` (incentive `2^63`,
miner 0 holding `2^63`) the accepted candidate `candLate` of miner 0 wraps
the `uint` balance of miner 0 to 0, below its previous value. -/
theorem balances_monotone_as_stated_fails :
    Reachable cfgO bcO1 ∧
    ∃ m m2, bcO1.miners[0]? = some m ∧
      (step bcO1 (.addBlock candLate 111)).state.miners[0]? = some m2 ∧
      m2.Balance < m.Balance :=
  ⟨Reachable.addBlock candA 105 (Reachable.init 100) AddBlock_bcO0,
    { Id := 0, Balance := 2 ^ 63, waitForSignal := 0 },
    { Id := 0, Balance := 0, waitForSignal := 0 }, by decide!, by decide!, by decide!⟩

/-- C10 (amended): for every ledger and every `AddBlock` or `IncreaseMiner`
call, an already-registered miner whose balance plus the configured incentive
stays below `2^64` (no `uint` wrap-around) keeps its position and id, and its
balance afterwards is greater than or equal to its balance before. -/
theorem balances_monotone (bc : Blockchain) (op : Op) (i : Nat) (m : Miner)
    (hm : bc.miners[i]? = some m)
    (hno : m.Balance + bc.config.BookkeepingIncentives < 2 ^ 64) :
    ∃ m2, (step bc op).state.miners[i]? = some m2 ∧ m2.Id = m.Id ∧ m.Balance ≤ m2.Balance := by
  have hi : i < bc.miners.length := by
    by_contra hc
    rw [List.getElem?_eq_none (by omega)] at hm
    exact Option.noConfusion hm
  cases op with
  | increaseMiner =>
    refine ⟨m, ?_, rfl, le_refl _⟩
    simp only [step, Run.state, IncreaseMiner]
    rw [List.getElem?_append_left hi]
    exact hm
  | addBlock block now =>
    simp only [step]
    rcases AddBlock_miners_cases bc block now with hsame | hcredit
    · rw [hsame]
      exact ⟨m, hm, rfl, le_refl _⟩
    · rw [hcredit]
      have hlen : i < (notifyFrom block.CoinBase 0 (bc.miners.modify
          (fun m => { m with Balance := (m.Balance + bc.config.BookkeepingIncentives) % 2 ^ 64 })
          block.CoinBase.toNat)).length := by
        rw [notifyFrom_length, List.length_modify]
        exact hi
      refine ⟨_, List.getElem?_eq_getElem hlen, ?_⟩
      obtain ⟨m0, hm0, hid, hb⟩ :=
        notifyFrom_getElem? _ _ 0 i _ (List.getElem?_eq_getElem hlen)
      rw [List.getElem?_modify, hm] at hm0
      simp only [Option.map_eq_map, Option.map_some', Option.some.injEq] at hm0
      rw [hid, hb, ← hm0]
      by_cases hc : block.CoinBase.toNat = i
      · rw [if_pos hc]
        refine ⟨rfl, ?_⟩
        show m.Balance ≤ (m.Balance + bc.config.BookkeepingIncentives) % 2 ^ 64
        rw [Nat.mod_eq_of_lt hno]
        exact Nat.le_add_right _ _
      · rw [if_neg hc]
        exact ⟨rfl, le_refl _⟩

theorem balances_monotone_witness :
    bcA1.miners[0]? = some { Id := 0, Balance := 20, waitForSignal := 0 } ∧
    (20 : Nat) + bcA1.config.BookkeepingIncentives < 2 ^ 64 ∧
    ∃ m2, (step bcA1 (.addBlock candLate 111)).state.miners[0]? = some m2 ∧
      m2.Id = 0 ∧ 20 ≤ m2.Balance :=
  ⟨by decide!, by decide!,
    balances_monotone bcA1 (.addBlock candLate 111) 0
      { Id := 0, Balance := 20, waitForSignal := 0 } (by decide!) (by decide!)⟩

/-! ## The miner registry -/

/-- A call of `AddBlock` or `IncreaseMiner` keeps every registered miner at
its position, with its id. -/
theorem step_keeps_id (bc : Blockchain) (op : Op) (i : Nat) (m : Miner)
    (hm : bc.miners[i]? = some m) :
    ∃ m2, (step bc op).state.miners[i]? = some m2 ∧ m2.Id = m.Id := by
  have hi : i < bc.miners.length := by
    by_contra hc
    rw [List.getElem?_eq_none (by omega)] at hm
    exact Option.noConfusion hm
  cases op with
  | increaseMiner =>
    refine ⟨m, ?_, rfl⟩
    simp only [step, Run.state, IncreaseMiner]
    rw [List.getElem?_append_left hi]
    exact hm
  | addBlock block now =>
    simp only [step]
    rcases AddBlock_miners_cases bc block now with hsame | hcredit
    · rw [hsame]
      exact ⟨m, hm, rfl⟩
    · rw [hcredit]
      have hlen : i < (notifyFrom block.CoinBase 0 (bc.miners.modify
          (fun m => { m with Balance := (m.Balance + bc.config.BookkeepingIncentives) % 2 ^ 64 })
          block.CoinBase.toNat)).length := by
        rw [notifyFrom_length, List.length_modify]
        exact hi
      refine ⟨_, List.getElem?_eq_getElem hlen, ?_⟩
      obtain ⟨m0, hm0, hid, _⟩ :=
        notifyFrom_getElem? _ _ 0 i _ (List.getElem?_eq_getElem hlen)
      rw [List.getElem?_modify, hm] at hm0
      simp only [Option.map_eq_map, Option.map_some', Option.some.injEq] at hm0
      rw [hid, ← hm0]
      split <;> rfl

theorem step_miners_length (bc : Blockchain) (op : Op) :
    bc.miners.length ≤ (step bc op).state.miners.length := by
  cases op with
  | increaseMiner => simp [step, Run.state, IncreaseMiner]
  | addBlock block now =>
    simp only [step]
    rcases AddBlock_miners_cases bc block now with hsame | hcredit
    · rw [hsame]
    · rw [hcredit, notifyFrom_length, List.length_modify]

theorem idsInOrder_step (bc : Blockchain) (op : Op) (h : IdsInOrder bc.miners) :
    IdsInOrder (step bc op).state.miners := by
  intro i m2 hm2
  by_cases hi : i < bc.miners.length
  · obtain ⟨m3, hm3, hid⟩ := step_keeps_id bc op i bc.miners[i] (List.getElem?_eq_getElem hi)
    rw [hm2] at hm3
    rw [Option.some.inj hm3, hid]
    exact h i _ (List.getElem?_eq_getElem hi)
  · cases op with
    | increaseMiner =>
      simp only [step, Run.state, IncreaseMiner] at hm2
      by_cases hi2 : i = bc.miners.length
      · rw [List.getElem?_append_right (by omega), hi2] at hm2
        simp only [Nat.sub_self, List.getElem?_cons_zero, Option.some.injEq] at hm2
        rw [← hm2, hi2]
      · rw [List.getElem?_eq_none (by simp; omega)] at hm2
        exact Option.noConfusion hm2
    | addBlock block now =>
      simp only [step] at hm2
      have hlen : (AddBlock bc block now).state.miners.length = bc.miners.length := by
        rcases AddBlock_miners_cases bc block now with hsame | hcredit
        · rw [hsame]
        · rw [hcredit, notifyFrom_length, List.length_modify]
      rw [List.getElem?_eq_none (by omega)] at hm2
      exact Option.noConfusion hm2

theorem reachable_idsInOrder {cfg : BlockchainConfig} {bc : Blockchain}
    (h : Reachable cfg bc) : IdsInOrder bc.miners := by
  induction h with
  | init now => exact (accounted_init cfg now).2.1 |> fun hb i m hm => (hb i m hm).1
  | addBlock block now _ hstep ih =>
    have := idsInOrder_step _ (.addBlock block now) ih
    simp only [step] at this
    rw [hstep] at this
    exact this
  | increaseMiner _ ih => exact idsInOrder_step _ .increaseMiner ih

/-- The ledger `bcA1` with a second miner registered. -/
theorem reachable_bcA1_increase : Reachable cfgA (IncreaseMiner bcA1) :=
  Reachable.increaseMiner reachable_bcA1

/-! ## C11 -/

/-- C11 (miner ids are the registration order): in every ledger state
reachable from `NewBlockChainNetWork` by `AddBlock` and `IncreaseMiner`,
`miners[i].Id = i` for every index `i`, hence ids are unique; `IncreaseMiner`
appends exactly one record, whose id is the registry size before the call and
whose balance is 0; and no call changes or removes the id of an existing
record. -/
theorem miner_ids_registration_order (cfg : BlockchainConfig) (bc : Blockchain)
    (h : Reachable cfg bc) :
    (∀ (i : Nat) (m : Miner), bc.miners[i]? = some m → m.Id = (i : Int)) ∧
    (∀ (i j : Nat) (m1 m2 : Miner), bc.miners[i]? = some m1 → bc.miners[j]? = some m2 →
      m1.Id = m2.Id → i = j) ∧
    (IncreaseMiner bc).miners =
      bc.miners ++ [{ Id := (bc.miners.length : Int), Balance := 0, waitForSignal := 0 }] ∧
    (∀ (op : Op) (i : Nat) (m : Miner), bc.miners[i]? = some m →
      ∃ m2, (step bc op).state.miners[i]? = some m2 ∧ m2.Id = m.Id) := by
  have hids := reachable_idsInOrder h
  refine ⟨hids, ?_, rfl, ?_⟩
  · intro i j m1 m2 h1 h2 heq
    have e1 := hids i m1 h1
    have e2 := hids j m2 h2
    rw [e1, e2] at heq
    exact_mod_cast heq
  · intro op i m hm
    exact step_keeps_id bc op i m hm

theorem miner_ids_registration_order_witness :
    Reachable cfgA (IncreaseMiner bcA1) ∧
    (∀ (i : Nat) (m : Miner), (IncreaseMiner bcA1).miners[i]? = some m → m.Id = (i : Int)) ∧
    (∀ (i j : Nat) (m1 m2 : Miner), (IncreaseMiner bcA1).miners[i]? = some m1 →
      (IncreaseMiner bcA1).miners[j]? = some m2 → m1.Id = m2.Id → i = j) ∧
    (IncreaseMiner (IncreaseMiner bcA1)).miners =
      (IncreaseMiner bcA1).miners ++
        [{ Id := ((IncreaseMiner bcA1).miners.length : Int), Balance := 0, waitForSignal := 0 }] ∧
    (∀ (op : Op) (i : Nat) (m : Miner), (IncreaseMiner bcA1).miners[i]? = some m →
      ∃ m2, (step (IncreaseMiner bcA1) op).state.miners[i]? = some m2 ∧ m2.Id = m.Id) :=
  ⟨reachable_bcA1_increase,
    miner_ids_registration_order cfgA (IncreaseMiner bcA1) reachable_bcA1_increase⟩

/-! ## C12 -/

/-- C12, as stated, fails: `NewBlockChainNetWork` builds a ledger from the
configuration `cfgZ`, whose retarget window is zero, and the candidate
`candA` then reaches `adjustDifficulty` with that zero window: the modulo
panics, after the block has been appended. -/
theorem zero_window_is_not_rejected :
    (NewBlockChainNetWork cfgZ 100).config.ModifyDifficultyBlockNumber = 0 ∧
    verifyNewBlock (NewBlockChainNetWork cfgZ 100) candA = some true ∧
    adjustDifficulty { NewBlockChainNetWork cfgZ 100 with
        blocks := (NewBlockChainNetWork cfgZ 100).blocks ++ [stamp candA 105] } =
      .panic { NewBlockChainNetWork cfgZ 100 with
        blocks := (NewBlockChainNetWork cfgZ 100).blocks ++ [stamp candA 105] } ∧
    AddBlock (NewBlockChainNetWork cfgZ 100) candA 105 =
      .panic { NewBlockChainNetWork cfgZ 100 with
        blocks := (NewBlockChainNetWork cfgZ 100).blocks ++ [stamp candA 105] } := by
  decide!

/-- C12 (amended): a startup configuration whose retarget window is zero is
not detected when the network is constructed: `NewBlockChainNetWork` returns a
one-block ledger carrying that configuration, and the first candidate that
passes `verifyNewBlock` reaches `adjustDifficulty` with the zero window, where
`AddBlock` panics after the append and before any reward is credited. -/
theorem zero_window_panics_on_first_accept (cfg : BlockchainConfig) (now t : Int)
    (block : Block)
    (hz : cfg.ModifyDifficultyBlockNumber = 0)
    (hacc : verifyNewBlock (NewBlockChainNetWork cfg now) block = some true) :
    (NewBlockChainNetWork cfg now).config = cfg ∧
    (NewBlockChainNetWork cfg now).blocks.length = 1 ∧
    AddBlock (NewBlockChainNetWork cfg now) block t =
      .panic { NewBlockChainNetWork cfg now with
        blocks := (NewBlockChainNetWork cfg now).blocks ++ [stamp block t] } ∧
    (AddBlock (NewBlockChainNetWork cfg now) block t).state.miners =
      (NewBlockChainNetWork cfg now).miners := by
  have hadd : AddBlock (NewBlockChainNetWork cfg now) block t =
      .panic { NewBlockChainNetWork cfg now with
        blocks := (NewBlockChainNetWork cfg now).blocks ++ [stamp block t] } := by
    rw [AddBlock_of_accept _ block t hacc]
    have hp : adjustDifficulty { NewBlockChainNetWork cfg now with
          blocks := (NewBlockChainNetWork cfg now).blocks ++ [stamp block t] } =
        .panic { NewBlockChainNetWork cfg now with
          blocks := (NewBlockChainNetWork cfg now).blocks ++ [stamp block t] } := by
      unfold adjustDifficulty
      rw [if_pos (by exact hz)]
    rw [hp]
    rfl
  refine ⟨rfl, rfl, hadd, ?_⟩
  rw [hadd]
  rfl

theorem zero_window_panics_on_first_accept_witness :
    cfgZ.ModifyDifficultyBlockNumber = 0 ∧
    verifyNewBlock (NewBlockChainNetWork cfgZ 100) candA = some true ∧
    (NewBlockChainNetWork cfgZ 100).config = cfgZ ∧
    (NewBlockChainNetWork cfgZ 100).blocks.length = 1 ∧
    AddBlock (NewBlockChainNetWork cfgZ 100) candA 105 =
      .panic { NewBlockChainNetWork cfgZ 100 with
        blocks := (NewBlockChainNetWork cfgZ 100).blocks ++ [stamp candA 105] } ∧
    (AddBlock (NewBlockChainNetWork cfgZ 100) candA 105).state.miners =
      (NewBlockChainNetWork cfgZ 100).miners :=
  ⟨rfl, by decide!,
    zero_window_panics_on_first_accept cfgZ 100 105 candA rfl (by decide!)⟩

/-! ## C13 -/

/-- C13 (end-to-end first block): starting from `NewBlockChainNetWork` with
one miner and a retarget window of 10, after `AddBlock` accepts one candidate
of miner 0 the chain length is 2, the balance of miner 0 is one
`BookkeepingIncentives` unit (a `uint`, below `2^64`), and the current
difficulty is the initial difficulty. -/
theorem first_block_end_to_end (cfg : BlockchainConfig) (now t : Int) (block : Block)
    (h1 : cfg.MinerCount = 1) (h10 : cfg.ModifyDifficultyBlockNumber = 10)
    (hu : cfg.BookkeepingIncentives < 2 ^ 64) (hc : block.CoinBase = 0)
    (hacc : verifyNewBlock (NewBlockChainNetWork cfg now) block = some true) :
    ∃ bc2, AddBlock (NewBlockChainNetWork cfg now) block t = .ok bc2 ∧
      bc2.blocks.length = 2 ∧
      bc2.miners = [{ Id := 0, Balance := cfg.BookkeepingIncentives, waitForSignal := 0 }] ∧
      bc2.currentDifficulty = cfg.InitialDifficulty := by
  have hadj : adjustDifficulty { NewBlockChainNetWork cfg now with
        blocks := (NewBlockChainNetWork cfg now).blocks ++ [stamp block t] } =
      .ok { NewBlockChainNetWork cfg now with
        blocks := (NewBlockChainNetWork cfg now).blocks ++ [stamp block t] } := by
    apply adjustDifficulty_of_no_fire
    · show cfg.ModifyDifficultyBlockNumber ≠ 0
      rw [h10]
      decide
    · show ([GenerateGenesisBlock [] now] ++ [stamp block t]).length %
        cfg.ModifyDifficultyBlockNumber ≠ 0
      rw [h10]
      simp
  rw [AddBlock_of_accept _ block t hacc, hadj]
  simp only [Run.andThen, bookkeepingRewards, notifyMiners, NewBlockChainNetWork, h1, hc]
  rw [if_pos (by decide)]
  refine ⟨_, rfl, rfl, ?_, rfl⟩
  have hu2 : cfg.BookkeepingIncentives < 18446744073709551616 := by
    have : (2 : Nat) ^ 64 = 18446744073709551616 := by norm_num
    rw [← this]
    exact hu
  simp [notifyFrom, List.range_succ, Nat.mod_eq_of_lt hu2]

theorem first_block_end_to_end_witness :
    cfgA.MinerCount = 1 ∧ cfgA.ModifyDifficultyBlockNumber = 10 ∧
    cfgA.BookkeepingIncentives < 2 ^ 64 ∧ candA.CoinBase = 0 ∧
    verifyNewBlock (NewBlockChainNetWork cfgA 100) candA = some true ∧
    ∃ bc2, AddBlock (NewBlockChainNetWork cfgA 100) candA 105 = .ok bc2 ∧
      bc2.blocks.length = 2 ∧
      bc2.miners = [{ Id := 0, Balance := cfgA.BookkeepingIncentives, waitForSignal := 0 }] ∧
      bc2.currentDifficulty = cfgA.InitialDifficulty :=
  ⟨rfl, rfl, by decide, rfl, by decide!,
    first_block_end_to_end cfgA 100 105 candA rfl rfl (by decide) rfl (by decide!)⟩

/-! ## Proof search -/

theorem mineLoop_quiet_none (b : BlockWithoutProof) (arrive : Nat → Nat)
    (harr : ∀ n, arrive n = 0) (fuel nonce : Nat)
    (hno : ∀ n, nonce ≤ n → n < nonce + fuel → ¬ Solves b n) :
    mineLoop b arrive fuel nonce 0 = { block := none, waitForSignal := 0, nonce := nonce + fuel } := by
  induction fuel generalizing nonce with
  | zero => rfl
  | succ k ih =>
    have h0 : ¬ hashInt (Sha256.Sum256 (prepareData b (nonce : Int))) < mineTarget b.TargetBit :=
      hno nonce (le_refl _) (by omega)
    unfold mineLoop
    simp only [harr, Nat.add_zero, Nat.lt_irrefl, if_false]
    rw [if_neg h0, ih (nonce + 1) (fun n h1 h2 => hno n (by omega) (by omega))]
    congr 1
    omega

theorem mineLoop_quiet_some (b : BlockWithoutProof) (arrive : Nat → Nat)
    (harr : ∀ n, arrive n = 0) (fuel nonce n : Nat)
    (hle : nonce ≤ n) (hlt : n < nonce + fuel) (hs : Solves b n)
    (hmin : ∀ m, nonce ≤ m → m < n → ¬ Solves b m) :
    mineLoop b arrive fuel nonce 0 =
      { block := some (minedBlock b n), waitForSignal := 0, nonce := n } := by
  induction fuel generalizing nonce with
  | zero => omega
  | succ k ih =>
    unfold mineLoop
    simp only [harr, Nat.add_zero, Nat.lt_irrefl, if_false]
    by_cases hn : nonce = n
    · have hs2 : hashInt (Sha256.Sum256 (prepareData b (n : Int))) < mineTarget b.TargetBit := hs
      rw [hn, if_pos hs2]
      rfl
    · have h0 : ¬ hashInt (Sha256.Sum256 (prepareData b (nonce : Int))) < mineTarget b.TargetBit :=
        hmin nonce (le_refl _) (by omega)
      rw [if_neg h0]
      exact ih (nonce + 1) (by omega) (by omega) (fun m h1 h2 => hmin m (by omega) h2)

/-- The result of `Mine` when no token is ever delivered. -/
theorem Mine_quiet (b : BlockWithoutProof) (arrive : Nat → Nat) (harr : ∀ n, arrive n = 0) :
    (∃ n, n < maxNonce ∧ Solves b n ∧ (∀ m, m < n → ¬ Solves b m) ∧
      Mine b 0 arrive = { block := some (minedBlock b n), waitForSignal := 0, nonce := n }) ∨
    ((∀ n, n < maxNonce → ¬ Solves b n) ∧
      Mine b 0 arrive = { block := none, waitForSignal := 0, nonce := maxNonce }) := by
  classical
  by_cases hex : ∃ n, n < maxNonce ∧ Solves b n
  · left
    have hfind := Nat.find_spec hex
    refine ⟨Nat.find hex, hfind.1, hfind.2, ?_, ?_⟩
    · intro m hm hsm
      exact Nat.find_min hex hm ⟨lt_trans hm hfind.1, hsm⟩
    · unfold Mine
      apply mineLoop_quiet_some b arrive harr maxNonce 0 (Nat.find hex) (Nat.zero_le _)
        (by simpa using hfind.1) hfind.2
      intro m _ hm hsm
      exact Nat.find_min hex hm ⟨lt_trans hm hfind.1, hsm⟩
  · right
    have hno : ∀ n, n < maxNonce → ¬ Solves b n := fun n hn hs => hex ⟨n, hn, hs⟩
    refine ⟨hno, ?_⟩
    unfold Mine
    have := mineLoop_quiet_none b arrive harr maxNonce 0 (fun n _ h2 => hno n (by simpa using h2))
    simpa using this

/-- Below the fourth root of `2^927` is below `2^(256 - 24.25)`. -/
theorem lt_rpow_of_pow_four_lt (x : ℕ) (h : x ^ 4 < 2 ^ 927) :
    (x : ℝ) < (2 : ℝ) ^ ((256 : ℝ) - (((97 / 4 : ℚ)) : ℝ)) := by
  by_contra hge
  have hge2 : (2 : ℝ) ^ ((256 : ℝ) - (((97 / 4 : ℚ)) : ℝ)) ≤ (x : ℝ) := not_lt.mp hge
  have hpos : (0 : ℝ) ≤ (2 : ℝ) ^ ((256 : ℝ) - (((97 / 4 : ℚ)) : ℝ)) :=
    le_of_lt (Real.rpow_pos_of_pos (by norm_num) _)
  have hpow := pow_le_pow_left₀ hpos hge2 4
  have he : ((2 : ℝ) ^ ((256 : ℝ) - (((97 / 4 : ℚ)) : ℝ))) ^ 4 = (2 : ℝ) ^ 927 := by
    rw [← Real.rpow_natCast, ← Real.rpow_mul (by norm_num)]
    have : ((256 : ℝ) - (((97 / 4 : ℚ)) : ℝ)) * ((4 : ℕ) : ℝ) = ((927 : ℕ) : ℝ) := by
      push_cast
      norm_num
    rw [this, Real.rpow_natCast]
  rw [he] at hpow
  have hnat : (2 : ℕ) ^ 927 ≤ x ^ 4 := by exact_mod_cast hpow
  omega

/-- The threshold of `Mine` one `float64` step above 4 target bits: the
difference `256 - 4.000000000000001` rounds to 252. -/
theorem mineTarget_bitsAbove4 :
    Float64.sub64 (.fin 256) (.fin bitsAbove4) = .fin 252 ∧
    mineTarget (.fin bitsAbove4) = 2 ^ 252 ∧ target (.fin bitsAbove4) = 2 ^ 251 := by
  decide!

/-! ## C14 -/

/-- C14, as stated, fails: the header `hdrG` declares 24.25 target bits and
the digest of its nonce 0, read as an unsigned integer, is strictly less than
`2^(256 - 24.25)`, so 0 is the smallest nonce below that bound; but `Mine`
compares with `2^uint(256 - 24.25) = 2^231`, which that digest exceeds, and
does not return nonce 0. -/
theorem mine_least_solution_as_stated_fails :
    hdrG.TargetBit = .fin (97 / 4) ∧ 0 < maxNonce ∧
    ((hashInt (Sha256.Sum256 (prepareData hdrG 0)) : ℕ) : ℝ) <
      (2 : ℝ) ^ ((256 : ℝ) - (((97 / 4 : ℚ)) : ℝ)) ∧
    mineTarget hdrG.TargetBit = 2 ^ 231 ∧
    ¬ ∃ blk, (Mine hdrG 0 (fun _ => 0)).block = some blk ∧ blk.Nonce = 0 := by
  refine ⟨rfl, by decide, lt_rpow_of_pow_four_lt _ (by decide!), by decide!, ?_⟩
  have hnot : ¬ Solves hdrG 0 := by
    unfold Solves
    decide!
  rintro ⟨blk, hblk, hnonce⟩
  rcases Mine_quiet hdrG (fun _ => 0) (fun _ => rfl) with ⟨n, _, hs, _, hmine⟩ | ⟨_, hmine⟩
  · rw [hmine] at hblk
    have hb : minedBlock hdrG n = blk := Option.some.inj hblk
    rw [← hb] at hnonce
    have hn : n = 0 := by
      have : ((n : Nat) : Int) = 0 := hnonce
      exact_mod_cast this
    rw [hn] at hs
    exact hnot hs
  · rw [hmine] at hblk
    exact Option.noConfusion hblk

/-- C14 (amended): for every header, when no cancellation token is ever
delivered, `Mine` returns `(block, true)` with nonce `n` if and only if `n` is
the smallest nonce in `[0, maxNonce)` whose digest, read as an unsigned
integer, is strictly less than `2^uint(256 - bits)`, the threshold `Mine`
computes: `256 - bits` is the `float64` difference, rounded to binary64, and
`uint` drops its fraction; if no nonce below `maxNonce` satisfies this it
returns `(nil, false)`. -/
theorem mine_least_solution (b : BlockWithoutProof) (arrive : Nat → Nat)
    (harr : ∀ n, arrive n = 0) :
    (∀ n : Nat, (∃ blk, (Mine b 0 arrive).block = some blk ∧ blk.Nonce = (n : Int)) ↔
      (n < maxNonce ∧
       hashInt (Sha256.Sum256 (prepareData b (n : Int))) <
         2 ^ Float64.toUint64 (Float64.sub64 (.fin 256) b.TargetBit) ∧
       ∀ m, m < n → ¬ hashInt (Sha256.Sum256 (prepareData b (m : Int))) <
         2 ^ Float64.toUint64 (Float64.sub64 (.fin 256) b.TargetBit))) ∧
    ((∀ n, n < maxNonce → ¬ hashInt (Sha256.Sum256 (prepareData b (n : Int))) <
        2 ^ Float64.toUint64 (Float64.sub64 (.fin 256) b.TargetBit)) →
      (Mine b 0 arrive).block = none) := by
  rcases Mine_quiet b arrive harr with ⟨n0, hlt0, hs0, hmin0, hmine⟩ | ⟨hno, hmine⟩
  · refine ⟨?_, ?_⟩
    · intro n
      constructor
      · rintro ⟨blk, hblk, hnonce⟩
        rw [hmine] at hblk
        have hb : minedBlock b n0 = blk := Option.some.inj hblk
        rw [← hb] at hnonce
        have hn : n0 = n := by
          have : ((n0 : Nat) : Int) = (n : Int) := hnonce
          exact_mod_cast this
        rw [← hn]
        exact ⟨hlt0, hs0, hmin0⟩
      · rintro ⟨_, hs, hmin⟩
        have hn : n0 = n := by
          rcases Nat.lt_trichotomy n0 n with h | h | h
          · exact absurd hs0 (hmin n0 h)
          · exact h
          · exact absurd hs (hmin0 n h)
        rw [hmine, ← hn]
        exact ⟨minedBlock b n0, rfl, rfl⟩
    · intro hnone
      exact absurd hs0 (hnone n0 hlt0)
  · refine ⟨?_, ?_⟩
    · intro n
      constructor
      · rintro ⟨blk, hblk, _⟩
        rw [hmine] at hblk
        exact Option.noConfusion hblk
      · rintro ⟨hlt, hs, _⟩
        exact absurd hs (hno n hlt)
    · intro _
      rw [hmine]

theorem mine_least_solution_witness :
    (∀ n : Nat, (fun _ : Nat => 0) n = 0) ∧
    (Mine hdrT 0 (fun _ => 0)).block = some (minedBlock hdrT 2) ∧
    (minedBlock hdrT 2).HashHex =
      "016453dcbe3019c22b5fd298c4d81d77a5e3f94122242e7189ce3b496bdb8042" ∧
    Float64.toUint64 (Float64.sub64 (.fin 256) hdrR.TargetBit) = 252 ∧
    (Mine hdrR 0 (fun _ => 0)).block = some (minedBlock hdrR 0) ∧
    2 ^ 251 ≤ hashInt (minedBlock hdrR 0).hash ∧
    (minedBlock hdrR 0).HashHex =
      "0e227c8571cef55268d957b3a66bbce420bb7fcd6ca3f0bb4f8d28b27eddd1cc" ∧
    (∀ n : Nat, (∃ blk, (Mine hdrT 0 (fun _ => 0)).block = some blk ∧ blk.Nonce = (n : Int)) ↔
      (n < maxNonce ∧
       hashInt (Sha256.Sum256 (prepareData hdrT (n : Int))) <
         2 ^ Float64.toUint64 (Float64.sub64 (.fin 256) hdrT.TargetBit) ∧
       ∀ m, m < n → ¬ hashInt (Sha256.Sum256 (prepareData hdrT (m : Int))) <
         2 ^ Float64.toUint64 (Float64.sub64 (.fin 256) hdrT.TargetBit))) ∧
    ((∀ n, n < maxNonce → ¬ hashInt (Sha256.Sum256 (prepareData hdrT (n : Int))) <
        2 ^ Float64.toUint64 (Float64.sub64 (.fin 256) hdrT.TargetBit)) →
      (Mine hdrT 0 (fun _ => 0)).block = none) :=
  ⟨fun _ => rfl, by decide!, by decide!, by decide!, by decide!, by decide!, by decide!,
    mine_least_solution hdrT (fun _ => 0) (fun _ => rfl)⟩

/-! ## The hash input -/

theorem hexDigitValue_hexDigit : ∀ d, d < 16 → hexDigitValue (hexDigit d) = d := by decide

theorem hexValue_append_singleton (bs : List Byte) (c : Byte) :
    hexValue (bs ++ [c]) = hexValue bs * 16 + hexDigitValue c := by
  simp [hexValue, List.foldl_append]

theorem hexValue_hexDigits (fuel n : Nat) (h : n < 16 ^ fuel) :
    hexValue (hexDigits fuel n) = n := by
  induction fuel generalizing n with
  | zero =>
    have : n = 0 := by simpa using h
    rw [this]
    rfl
  | succ k ih =>
    unfold hexDigits
    by_cases hn : n < 16
    · rw [if_pos hn]
      simp [hexValue, hexDigitValue_hexDigit n hn]
    · rw [if_neg hn, hexValue_append_singleton,
        hexDigitValue_hexDigit (n % 16) (Nat.mod_lt _ (by decide))]
      have hdiv : n / 16 < 16 ^ k := by
        rw [Nat.div_lt_iff_lt_mul (by decide)]
        rw [pow_succ] at h
        exact h
      rw [ih (n / 16) hdiv]
      omega

theorem hexDigit_lower : ∀ d, d < 16 →
    Char.ofNat (hexDigit d).val ∈ lowerHexDigits ∧ (hexDigit d = 48 → d = 0) := by
  decide

theorem hexDigits_lower (fuel n : Nat) :
    ∀ c ∈ hexDigits fuel n, Char.ofNat c.val ∈ lowerHexDigits := by
  induction fuel generalizing n with
  | zero =>
    intro c hc
    simp [hexDigits] at hc
  | succ k ih =>
    intro c hc
    unfold hexDigits at hc
    by_cases hn : n < 16
    · rw [if_pos hn] at hc
      rw [List.mem_singleton.mp hc]
      exact (hexDigit_lower n hn).1
    · rw [if_neg hn] at hc
      rcases List.mem_append.mp hc with h | h
      · exact ih (n / 16) c h
      · rw [List.mem_singleton.mp h]
        exact (hexDigit_lower (n % 16) (Nat.mod_lt _ (by decide))).1

theorem hexDigits_head (fuel n : Nat) (hpos : 0 < n) (h : n < 16 ^ fuel) :
    ∃ c rest, hexDigits fuel n = c :: rest ∧ c ≠ 48 := by
  induction fuel generalizing n with
  | zero =>
    simp at h
    omega
  | succ k ih =>
    unfold hexDigits
    by_cases hn : n < 16
    · rw [if_pos hn]
      refine ⟨hexDigit n, [], rfl, ?_⟩
      intro h48
      have := (hexDigit_lower n hn).2 h48
      omega
    · rw [if_neg hn]
      have hdiv : n / 16 < 16 ^ k := by
        rw [Nat.div_lt_iff_lt_mul (by decide)]
        rw [pow_succ] at h
        exact h
      obtain ⟨c, rest, hc, hne⟩ := ih (n / 16) (by omega) hdiv
      exact ⟨c, rest ++ [hexDigit (n % 16)], by rw [hc]; rfl, hne⟩

theorem isHexNumeral_hexDigits (n : Nat) (h : n < 16 ^ 16) :
    IsHexNumeral (hexDigits 16 n) n := by
  rcases Nat.eq_zero_or_pos n with h0 | hpos
  · subst h0
    have h48 : hexDigits 16 0 = [48] := rfl
    rw [h48]
    unfold IsHexNumeral
    decide!
  · obtain ⟨c, rest, hc, hne⟩ := hexDigits_head 16 n hpos h
    refine ⟨?_, hexDigits_lower 16 n, ?_, hexValue_hexDigits 16 n h⟩
    · rw [hc]
      exact List.cons_ne_nil _ _
    · rw [hc]
      intro h48
      exact absurd (Option.some.inj h48) hne

/-- The digits `int2Hex` writes for a non-negative `int64` are its hexadecimal
numeral. -/
theorem isHexNumeral_int2Hex (n : Int) (h0 : 0 ≤ n) (h63 : n < 2 ^ 63) :
    IsHexNumeral (int2Hex n) n.toNat := by
  unfold int2Hex
  rw [if_neg (not_lt.mpr h0)]
  apply isHexNumeral_hexDigits
  have : n.toNat < 2 ^ 63 := by omega
  calc n.toNat < 2 ^ 63 := this
    _ ≤ 16 ^ 16 := by norm_num

/-- For a negative `int64`, `int2Hex` writes a minus sign and the numeral of
the magnitude. -/
theorem int2Hex_neg (n : Int) (hneg : n < 0) (h63 : -(2 ^ 63) ≤ n) :
    ∃ ds, int2Hex n = 45 :: ds ∧ IsHexNumeral ds n.natAbs := by
  refine ⟨hexDigits 16 n.natAbs, ?_, ?_⟩
  · unfold int2Hex
    rw [if_pos hneg]
  · apply isHexNumeral_hexDigits
    have : n.natAbs ≤ 2 ^ 63 := by omega
    calc n.natAbs ≤ 2 ^ 63 := this
      _ < 16 ^ 16 := by norm_num

theorem digitChar_lower : ∀ d, d < 16 →
    Nat.digitChar d ∈ lowerHexDigits ∧ hexCharValue (Nat.digitChar d) = d := by
  decide

/-- The string of `hex.EncodeToString` is the lowercase rendering of its
argument. -/
theorem isLowerHexOf_hexEncode (bs : List Byte) : IsLowerHexOf (hexEncode bs) bs := by
  induction bs with
  | nil => exact ⟨rfl, by intro c hc; simp [hexEncode] at hc, rfl⟩
  | cons b bs ih =>
    obtain ⟨h1, h2, h3⟩ := ih
    have hhi := digitChar_lower (b.val / 16) (by omega)
    have hlo := digitChar_lower (b.val % 16) (by omega)
    have hdata : (hexEncode (b :: bs)).data =
        Nat.digitChar (b.val / 16) :: Nat.digitChar (b.val % 16) :: (hexEncode bs).data := by
      simp [hexEncode]
    refine ⟨?_, ?_, ?_⟩
    · rw [hdata]
      simp only [List.length_cons]
      omega
    · intro c hc
      rw [hdata] at hc
      rcases List.mem_cons.mp hc with h | h
      · rw [h]
        exact hhi.1
      · rcases List.mem_cons.mp h with h | h
        · rw [h]
          exact hlo.1
        · exact h2 c h
    · rw [hdata]
      simp only [hexDecode, List.map_cons]
      rw [h3, hhi.2, hlo.2]
      congr 1
      omega

/-- Within the range of `int64`, the conversion `int64(f)` drops the fraction:
the floor of a non-negative value, the ceiling of a negative one. -/
theorem toInt64_trunc (q : ℚ) (hlo : -(2 ^ 63) ≤ q) (hhi : q < 2 ^ 63) :
    Float64.toInt64 (.fin q) = if 0 ≤ q then ⌊q⌋ else ⌈q⌉ := by
  show max (-(2 ^ 63)) (min (if 0 ≤ q then ⌊q⌋ else -⌊-q⌋) (2 ^ 63 - 1)) = _
  by_cases h0 : 0 ≤ q
  · rw [if_pos h0, if_pos h0]
    have h1 : 0 ≤ ⌊q⌋ := Int.floor_nonneg.mpr h0
    have h2 : ⌊q⌋ < 2 ^ 63 := by
      apply Int.floor_lt.mpr
      exact_mod_cast hhi
    rw [min_eq_left (by omega), max_eq_right (by omega)]
  · rw [if_neg h0, if_neg h0]
    have hc : -⌊-q⌋ = ⌈q⌉ := by
      rw [Int.floor_neg]
      ring
    rw [hc]
    have h1 : ⌈q⌉ ≤ 0 := by
      apply Int.ceil_le.mpr
      have : q < 0 := not_le.mp h0
      exact_mod_cast le_of_lt this
    have h2 : -(2 ^ 63) ≤ ⌈q⌉ := by
      have h3 : ((-(2 ^ 63) : ℤ) : ℚ) ≤ ((⌈q⌉ : ℤ) : ℚ) := by
        have := Int.le_ceil q
        push_cast
        linarith
      exact_mod_cast h3
    rw [min_eq_left (by omega), max_eq_right (by omega)]

/-- The digest of `sha256.Sum256` has 32 bytes. -/
theorem sum256_length (msg : List Byte) : (Sha256.Sum256 msg).length = 32 := by
  simp [Sha256.Sum256, Sha256.wordBytes]

theorem prepareData_eq (b : BlockWithoutProof) (n : Int) :
    prepareData b n = int2Hex b.CoinBase ++ b.prevBlockHash ++ b.data ++ int2Hex b.timestamp ++
      int2Hex b.TargetBit.toInt64 ++ int2Hex n := by
  simp [prepareData, bytesJoin]

/-- A block returned by the loop of `Mine` is the block of the nonce at which
the loop stopped, and that nonce solves the puzzle. -/
theorem mineLoop_block (b : BlockWithoutProof) (arrive : Nat → Nat) (fuel nonce box : Nat)
    (blk : Block) (h : (mineLoop b arrive fuel nonce box).block = some blk) :
    blk = minedBlock b (mineLoop b arrive fuel nonce box).nonce ∧
    Solves b (mineLoop b arrive fuel nonce box).nonce ∧
    nonce ≤ (mineLoop b arrive fuel nonce box).nonce ∧
    (mineLoop b arrive fuel nonce box).nonce < nonce + fuel := by
  induction fuel generalizing nonce box with
  | zero => exact Option.noConfusion h
  | succ k ih =>
    unfold mineLoop at h ⊢
    by_cases hbox : 0 < box + arrive nonce
    · rw [if_pos hbox] at h
      exact Option.noConfusion h
    · rw [if_neg hbox] at h ⊢
      by_cases hs : hashInt (Sha256.Sum256 (prepareData b (nonce : Int))) < mineTarget b.TargetBit
      · simp only [if_pos hs] at h ⊢
        refine ⟨(Option.some.inj h).symm, hs, le_refl _, by omega⟩
      · simp only [if_neg hs] at h ⊢
        obtain ⟨h1, h2, h3, h4⟩ := ih (nonce + 1) (box + arrive nonce) h
        exact ⟨h1, h2, by omega, by omega⟩

/-! ## C15 -/

/-- C15 (hash-input encoding): for every header and nonce, `prepareData` is
the concatenation, in this order and without separators, of hex(coinbase),
the previous-hash bytes, the payload bytes, hex(creation timestamp),
hex(target bits truncated to an integer) and hex(nonce), where hex of a
non-negative `int64` is its hexadecimal numeral in lowercase ASCII digits
without leading zeros, hex of a negative one is a minus sign followed by the
numeral of its magnitude, and the truncation of target bits within the range
of `int64` drops the fraction; and the block emitted by a successful `Mine`
carries the unchanged template, that nonce, the 32 bytes
`hash = SHA-256(prepareData(nonce))` and `HashHex`, the lowercase hex
rendering of `hash`: 64 digits of `0`..`9`, `a`..`f` that read back as the
bytes of `hash`. -/
theorem hash_input_encoding (b : BlockWithoutProof) (box : Nat) (arrive : Nat → Nat)
    (blk : Block) (h : (Mine b box arrive).block = some blk) :
    (∀ n : Int, prepareData b n =
      int2Hex b.CoinBase ++ b.prevBlockHash ++ b.data ++ int2Hex b.timestamp ++
        int2Hex b.TargetBit.toInt64 ++ int2Hex n) ∧
    (∀ n : Int, 0 ≤ n → n < 2 ^ 63 → IsHexNumeral (int2Hex n) n.toNat) ∧
    (∀ n : Int, n < 0 → -(2 ^ 63) ≤ n → ∃ ds, int2Hex n = 45 :: ds ∧ IsHexNumeral ds n.natAbs) ∧
    (∀ q : ℚ, b.TargetBit = .fin q → -(2 ^ 63) ≤ q → q < 2 ^ 63 →
      b.TargetBit.toInt64 = if 0 ≤ q then ⌊q⌋ else ⌈q⌉) ∧
    blk.toBlockWithoutProof = b ∧
    blk.Nonce = ((Mine b box arrive).nonce : Int) ∧
    blk.hash = Sha256.Sum256 (prepareData b blk.Nonce) ∧
    blk.hash.length = 32 ∧
    blk.HashHex = hexEncode blk.hash ∧
    IsLowerHexOf blk.HashHex blk.hash := by
  obtain ⟨hblk, _, _, _⟩ := mineLoop_block b arrive maxNonce 0 box blk h
  refine ⟨prepareData_eq b, isHexNumeral_int2Hex, int2Hex_neg, ?_, ?_, ?_, ?_, ?_, ?_, ?_⟩
  · intro q hq hlo hhi
    rw [hq]
    exact toInt64_trunc q hlo hhi
  · rw [hblk]
    rfl
  · rw [hblk]
    rfl
  · rw [hblk]
    rfl
  · rw [hblk]
    exact sum256_length _
  · rw [hblk]
    rfl
  · rw [hblk]
    exact isLowerHexOf_hexEncode _

theorem hash_input_encoding_witness :
    (Mine hdrT 0 (fun _ => 0)).block = some (minedBlock hdrT 2) ∧
    prepareData hdrT 2 = [48, 1, 2, 3, 54, 53, 53, 51, 102, 49, 48, 48, 52, 50] ∧
    (minedBlock hdrT 2).HashHex =
      "016453dcbe3019c22b5fd298c4d81d77a5e3f94122242e7189ce3b496bdb8042" ∧
    int2Hex 0 = [48] ∧ int2Hex 1700000000 = [54, 53, 53, 51, 102, 49, 48, 48] ∧
    int2Hex (-255) = [45, 102, 102] ∧
    Float64.toInt64 (.fin (9 / 2)) = 4 ∧ Float64.toInt64 (.fin (-9 / 2)) = -4 ∧
    ((∀ n : Int, prepareData hdrT n =
      int2Hex hdrT.CoinBase ++ hdrT.prevBlockHash ++ hdrT.data ++ int2Hex hdrT.timestamp ++
        int2Hex hdrT.TargetBit.toInt64 ++ int2Hex n) ∧
    (∀ n : Int, 0 ≤ n → n < 2 ^ 63 → IsHexNumeral (int2Hex n) n.toNat) ∧
    (∀ n : Int, n < 0 → -(2 ^ 63) ≤ n → ∃ ds, int2Hex n = 45 :: ds ∧ IsHexNumeral ds n.natAbs) ∧
    (∀ q : ℚ, hdrT.TargetBit = .fin q → -(2 ^ 63) ≤ q → q < 2 ^ 63 →
      hdrT.TargetBit.toInt64 = if 0 ≤ q then ⌊q⌋ else ⌈q⌉) ∧
    (minedBlock hdrT 2).toBlockWithoutProof = hdrT ∧
    (minedBlock hdrT 2).Nonce = ((Mine hdrT 0 (fun _ => 0)).nonce : Int) ∧
    (minedBlock hdrT 2).hash = Sha256.Sum256 (prepareData hdrT (minedBlock hdrT 2).Nonce) ∧
    (minedBlock hdrT 2).hash.length = 32 ∧
    (minedBlock hdrT 2).HashHex = hexEncode (minedBlock hdrT 2).hash ∧
    IsLowerHexOf (minedBlock hdrT 2).HashHex (minedBlock hdrT 2).hash) :=
  ⟨by decide!, by decide!, by decide!, by decide!, by decide!, by decide!, by decide!, by decide!,
    hash_input_encoding hdrT 0 (fun _ => 0) (minedBlock hdrT 2) (by decide!)⟩

/-- Known answer of SHA-256 for the message "abc" (FIPS 180-4). -/
theorem sum256_abc :
    hexEncode (Sha256.Sum256 [97, 98, 99]) =
      "ba7816bf8f01cfea414140de5dae2223b00361a396177a9cb410ff61f20015ad" := by
  decide!

/-- The digest `Mine` finds for `hdrT`, as `sha256.Sum256` and
`hex.EncodeToString` give it. -/
theorem minedBlock_hdrT_hashHex :
    (minedBlock hdrT 2).HashHex =
      "016453dcbe3019c22b5fd298c4d81d77a5e3f94122242e7189ce3b496bdb8042" := by
  decide!

/-! ## Truncation of the target bits -/

theorem floor_bounds (d : ℚ) (h0 : 0 ≤ d) (h256 : d ≤ 256) : 0 ≤ ⌊d⌋ ∧ ⌊d⌋ ≤ 256 := by
  refine ⟨Int.floor_nonneg.mpr h0, ?_⟩
  have h1 : ((⌊d⌋ : ℤ) : ℚ) ≤ 256 := le_trans (Int.floor_le d) h256
  exact_mod_cast h1

theorem ceil_bounds (d : ℚ) (h0 : 0 ≤ d) (h256 : d ≤ 256) : 0 ≤ ⌈d⌉ ∧ ⌈d⌉ ≤ 256 := by
  refine ⟨Int.ceil_nonneg h0, ?_⟩
  apply Int.ceil_le.mpr
  exact_mod_cast h256

theorem toUint64_fin_eq_floor (d : ℚ) (h0 : 0 ≤ d) (h256 : d ≤ 256) :
    Float64.toUint64 (.fin d) = ⌊d⌋.toNat := by
  obtain ⟨hf0, hf⟩ := floor_bounds d h0 h256
  show min (Int.toNat ⌊d⌋) (2 ^ 64 - 1) = ⌊d⌋.toNat
  apply min_eq_left
  have : ⌊d⌋.toNat ≤ 256 := by omega
  calc ⌊d⌋.toNat ≤ 256 := this
    _ ≤ 2 ^ 64 - 1 := by norm_num

theorem toInt64_fin_eq_floor (d : ℚ) (h0 : 0 ≤ d) (h256 : d ≤ 256) :
    Float64.toInt64 (.fin d) = ⌊d⌋ := by
  obtain ⟨hf0, hf⟩ := floor_bounds d h0 h256
  show max (-(2 ^ 63)) (min (if 0 ≤ d then ⌊d⌋ else -⌊-d⌋) (2 ^ 63 - 1)) = ⌊d⌋
  rw [if_pos h0, min_eq_left (by omega), max_eq_right (by omega)]

/-! ## Rounding to binary64 -/

theorem log2Aux_le (fuel n : Nat) (hn : 0 < n) : 2 ^ log2Aux fuel n ≤ n := by
  induction fuel generalizing n with
  | zero => simpa [log2Aux] using hn
  | succ f ih =>
    unfold log2Aux
    split
    · rename_i h2
      have := ih (n / 2) (by omega)
      rw [pow_succ]
      omega
    · simpa using hn

theorem lt_log2Aux (fuel n : Nat) (hf : n ≤ fuel) : n < 2 ^ (log2Aux fuel n + 1) := by
  induction fuel generalizing n with
  | zero =>
    have : n = 0 := by omega
    subst this
    simp [log2Aux]
  | succ f ih =>
    unfold log2Aux
    split
    · rename_i h2
      have := ih (n / 2) (by omega)
      rw [pow_succ]
      omega
    · simp
      omega

theorem binExp_le (n d : Nat) (h : n ≤ 256 * d) : binExp n d ≤ 8 := by
  have h1 : (ilog2 n : Int) - (ilog2 d : Int) ≤ 8 := by
    rcases Nat.eq_zero_or_pos n with hn | hn
    · subst hn
      have : ilog2 0 = 0 := rfl
      rw [this]
      omega
    · have ha := log2Aux_le n n hn
      have hb := lt_log2Aux d d (le_refl d)
      have hc : 2 ^ ilog2 n < 2 ^ (ilog2 d + 1 + 8) := by
        rw [pow_add]
        calc 2 ^ ilog2 n ≤ n := ha
          _ ≤ 256 * d := h
          _ < 2 ^ (ilog2 d + 1) * 2 ^ 8 := by
            have : d < 2 ^ (ilog2 d + 1) := hb
            omega
      have hd := (Nat.pow_lt_pow_iff_right (by norm_num : 1 < 2)).mp hc
      omega
  unfold binExp
  split <;> omega

theorem roundHalfEven_bounds (N D : Nat) :
    N / D ≤ roundHalfEven N D ∧ roundHalfEven N D ≤ N / D + 1 ∧
    (N % D = 0 → 0 < D → roundHalfEven N D = N / D) := by
  unfold roundHalfEven
  refine ⟨?_, ?_, ?_⟩
  · split_ifs <;> omega
  · split_ifs <;> omega
  · intro h hD
    rw [h]
    simp [hD]

theorem roundHalfEven_between (n d k fl cl : Nat) (hd : 0 < d) (hfl : fl * d ≤ n)
    (hcl : n ≤ cl * d) :
    fl * 2 ^ k ≤ roundHalfEven (n * 2 ^ k) d ∧ roundHalfEven (n * 2 ^ k) d ≤ cl * 2 ^ k := by
  obtain ⟨h1, h2, h3⟩ := roundHalfEven_bounds (n * 2 ^ k) d
  have hlow : fl * 2 ^ k ≤ n * 2 ^ k / d := by
    rw [Nat.le_div_iff_mul_le hd]
    calc fl * 2 ^ k * d = fl * d * 2 ^ k := by ring
      _ ≤ n * 2 ^ k := Nat.mul_le_mul_right _ hfl
  have hup : n * 2 ^ k ≤ cl * 2 ^ k * d := by
    calc n * 2 ^ k ≤ cl * d * 2 ^ k := Nat.mul_le_mul_right _ hcl
      _ = cl * 2 ^ k * d := by ring
  have hup2 : n * 2 ^ k / d ≤ cl * 2 ^ k := by
    apply Nat.div_le_of_le_mul
    calc n * 2 ^ k ≤ cl * 2 ^ k * d := hup
      _ = d * (cl * 2 ^ k) := Nat.mul_comm _ _
  refine ⟨le_trans hlow h1, ?_⟩
  rcases Nat.lt_or_ge (n * 2 ^ k / d) (cl * 2 ^ k) with hlt | hge
  · omega
  · have heq : n * 2 ^ k / d = cl * 2 ^ k := le_antisymm hup2 hge
    have hmod : n * 2 ^ k % d = 0 := by
      have hdm := Nat.div_add_mod (n * 2 ^ k) d
      rw [heq] at hdm
      have : d * (cl * 2 ^ k) = cl * 2 ^ k * d := Nat.mul_comm _ _
      omega
    rw [h3 hmod hd, heq]

/-- On `[0, 256]` rounding to binary64 stays between the neighbouring whole
numbers. -/
theorem round64_between (x : ℚ) (h0 : 0 ≤ x) (h256 : x ≤ 256) :
    ((⌊x⌋ : ℤ) : ℚ) ≤ round64 x ∧ round64 x ≤ ((⌈x⌉ : ℤ) : ℚ) := by
  have hnum : 0 ≤ x.num := Rat.num_nonneg.mpr h0
  have hden : 0 < x.den := x.den_pos
  have hx : ((x.num.natAbs : ℕ) : ℚ) / ((x.den : ℕ) : ℚ) = x := by
    have h1 : ((x.num.natAbs : ℕ) : ℤ) = x.num := Int.natAbs_of_nonneg hnum
    have h2 : ((x.num.natAbs : ℕ) : ℚ) = ((x.num : ℤ) : ℚ) :=
      (Int.cast_natCast _).symm.trans (congrArg (fun z : ℤ => (z : ℚ)) h1)
    rw [h2]
    exact Rat.num_div_den x
  have hdq : (0 : ℚ) < ((x.den : ℕ) : ℚ) := by exact_mod_cast hden
  have hf0 : 0 ≤ ⌊x⌋ := Int.floor_nonneg.mpr h0
  have hc0 : 0 ≤ ⌈x⌉ := Int.ceil_nonneg h0
  obtain ⟨fl, hfl⟩ := Int.eq_ofNat_of_zero_le hf0
  obtain ⟨cl, hcl⟩ := Int.eq_ofNat_of_zero_le hc0
  have hflq : ((fl : ℕ) : ℚ) ≤ x := by
    have := Int.floor_le x
    rw [hfl] at this
    exact_mod_cast this
  have hclq : x ≤ ((cl : ℕ) : ℚ) := by
    have := Int.le_ceil x
    rw [hcl] at this
    exact_mod_cast this
  have hfln : fl * x.den ≤ x.num.natAbs := by
    have : ((fl : ℕ) : ℚ) * ((x.den : ℕ) : ℚ) ≤ ((x.num.natAbs : ℕ) : ℚ) := by
      rw [← hx] at hflq
      exact (le_div_iff₀ hdq).mp hflq
    exact_mod_cast this
  have hcln : x.num.natAbs ≤ cl * x.den := by
    have : ((x.num.natAbs : ℕ) : ℚ) ≤ ((cl : ℕ) : ℚ) * ((x.den : ℕ) : ℚ) := by
      rw [← hx] at hclq
      exact (div_le_iff₀ hdq).mp hclq
    exact_mod_cast this
  have hn256 : x.num.natAbs ≤ 256 * x.den := by
    have : ((x.num.natAbs : ℕ) : ℚ) ≤ 256 * ((x.den : ℕ) : ℚ) := by
      rw [← hx] at h256
      exact (div_le_iff₀ hdq).mp h256
    exact_mod_cast this
  have hs : ¬ (0 ≤ max (binExp x.num.natAbs x.den) (-1022) - 52) := by
    have := binExp_le _ _ hn256
    have h2 : max (binExp x.num.natAbs x.den) (-1022) ≤ 8 := max_le this (by norm_num)
    omega
  have hnotneg : ¬ x < 0 := not_lt.mpr h0
  obtain ⟨hlo, hhi⟩ := roundHalfEven_between x.num.natAbs x.den
    (-(max (binExp x.num.natAbs x.den) (-1022) - 52)).toNat fl cl hden hfln hcln
  have hr : round64 x =
      ((roundHalfEven (x.num.natAbs * 2 ^ (-(max (binExp x.num.natAbs x.den) (-1022) - 52)).toNat)
          x.den : ℕ) : ℚ) /
        ((2 ^ (-(max (binExp x.num.natAbs x.den) (-1022) - 52)).toNat : ℕ) : ℚ) := by
    simp only [round64]
    rw [if_neg hnotneg, if_neg hs]
  have hpos : (0 : ℚ) <
      ((2 ^ (-(max (binExp x.num.natAbs x.den) (-1022) - 52)).toNat : ℕ) : ℚ) := by
    exact_mod_cast (pow_pos (by norm_num) _ : 0 < 2 ^ (-(max (binExp x.num.natAbs x.den) (-1022) - 52)).toNat)
  rw [hr, hfl, hcl]
  constructor
  · rw [le_div_iff₀ hpos]
    exact_mod_cast hlo
  · rw [div_le_iff₀ hpos]
    exact_mod_cast hhi

/-- The exponent of `Mine` is the whole part of the rounded difference, which
lies between `256 - ceil(d)` and `256 - floor(d)`. -/
theorem toUint64_sub64 (d : ℚ) (h0 : 0 ≤ d) (h256 : d ≤ 256) :
    Float64.toUint64 (Float64.sub64 (.fin 256) (.fin d)) = ⌊round64 (256 - d)⌋.toNat ∧
    256 - ⌈d⌉ ≤ ⌊round64 (256 - d)⌋ ∧ ⌊round64 (256 - d)⌋ ≤ 256 - ⌊d⌋ ∧
    round64 (256 - d) ≤ 256 - ((⌊d⌋ : ℤ) : ℚ) := by
  obtain ⟨hf0, hf⟩ := floor_bounds d h0 h256
  obtain ⟨hc0, hc⟩ := ceil_bounds d h0 h256
  obtain ⟨hlo, hhi⟩ := round64_between (256 - d) (by linarith) (by linarith)
  have hfl : ⌊(256 : ℚ) - d⌋ = 256 - ⌈d⌉ := by
    have h1 : (256 : ℚ) - d = -d + ((256 : ℤ) : ℚ) := by push_cast; ring
    rw [h1, Int.floor_add_int, Int.floor_neg]
    ring
  have hcl : ⌈(256 : ℚ) - d⌉ = 256 - ⌊d⌋ := by
    have h1 : (256 : ℚ) - d = -d + ((256 : ℤ) : ℚ) := by push_cast; ring
    rw [h1, Int.ceil_add_int, Int.ceil_neg]
    ring
  rw [hfl] at hlo
  rw [hcl] at hhi
  have h1 : 256 - ⌈d⌉ ≤ ⌊round64 (256 - d)⌋ := Int.le_floor.mpr hlo
  have h3 : round64 (256 - d) ≤ 256 - ((⌊d⌋ : ℤ) : ℚ) := by
    have : (((256 - ⌊d⌋ : ℤ)) : ℚ) = 256 - ((⌊d⌋ : ℤ) : ℚ) := by push_cast; ring
    rw [← this]
    exact hhi
  have h2 : ⌊round64 (256 - d)⌋ ≤ 256 - ⌊d⌋ := by
    have : ((⌊round64 (256 - d)⌋ : ℤ) : ℚ) ≤ (((256 - ⌊d⌋ : ℤ)) : ℚ) :=
      le_trans (Int.floor_le _) hhi
    exact_mod_cast this
  refine ⟨?_, h1, h2, h3⟩
  show min (Int.toNat ⌊round64 (256 - d)⌋) (2 ^ 64 - 1) = ⌊round64 (256 - d)⌋.toNat
  apply min_eq_left
  have : ⌊round64 (256 - d)⌋.toNat ≤ 256 := by omega
  calc ⌊round64 (256 - d)⌋.toNat ≤ 256 := this
    _ ≤ 2 ^ 64 - 1 := by norm_num

/-! ## C16 -/

/-- C16, as stated, fails: for 20.5 target bits the difference `256 - 20.5`
is the `float64` value 235.5 and the exponent of `Mine`, `uint(256 - 20.5)`,
is 235, while `uint64(20.5)` and `int64(20.5)` are 20 and `256 - floor(20.5)`
is 236. -/
theorem exponent_floor_rule_fails :
    (0 : ℚ) ≤ 41 / 2 ∧ (41 / 2 : ℚ) ≤ 256 ∧
    Float64.sub64 (.fin 256) (.fin (41 / 2)) = .fin (471 / 2) ∧
    Float64.toUint64 (Float64.sub64 (.fin 256) (.fin (41 / 2))) = 235 ∧
    Float64.toUint64 (.fin (41 / 2)) = 20 ∧
    Float64.toInt64 (.fin (41 / 2)) = 20 ∧
    Float64.toUint64 (Float64.sub64 (.fin 256) (.fin (41 / 2))) ≠
      256 - Float64.toUint64 (.fin (41 / 2)) := by
  decide!

/-- C16 (amended): for every target-bits value `d` in `[0, 256]`, the equality
check of `verifyNewBlock` (`uint64(d)`) and `prepareData` (`int64(d)`) both
use `floor(d)`, while the exponent `Mine` uses for its threshold,
`uint(256 - d)` with the `float64` difference, is `256 - ceil(d)` or
`256 - floor(d)`: it is `256 - floor(d)` when `d` is a whole number, it is
`256 - ceil(d)` when the difference `256 - d` is a `float64` value (is not
rounded), and it equals `256 - floor(d)` exactly when the difference rounds
to the whole number `256 - floor(d)`. -/
theorem exponent_truncation (d : ℚ) (h0 : 0 ≤ d) (h256 : d ≤ 256) :
    Float64.toUint64 (.fin d) = ⌊d⌋.toNat ∧
    Float64.toInt64 (.fin d) = ⌊d⌋ ∧
    (Float64.toUint64 (Float64.sub64 (.fin 256) (.fin d)) = 256 - ⌈d⌉.toNat ∨
      Float64.toUint64 (Float64.sub64 (.fin 256) (.fin d)) = 256 - ⌊d⌋.toNat) ∧
    (((⌊d⌋ : ℤ) : ℚ) = d →
      Float64.toUint64 (Float64.sub64 (.fin 256) (.fin d)) = 256 - ⌊d⌋.toNat) ∧
    (round64 (256 - d) = 256 - d →
      Float64.toUint64 (Float64.sub64 (.fin 256) (.fin d)) = 256 - ⌈d⌉.toNat) ∧
    (Float64.toUint64 (Float64.sub64 (.fin 256) (.fin d)) = 256 - Float64.toUint64 (.fin d) ↔
      round64 (256 - d) = 256 - ((⌊d⌋ : ℤ) : ℚ)) := by
  obtain ⟨hf0, hf⟩ := floor_bounds d h0 h256
  obtain ⟨hc0, hc⟩ := ceil_bounds d h0 h256
  obtain ⟨hE, hlo, hhi, hhiq⟩ := toUint64_sub64 d h0 h256
  have hcf : ⌈d⌉ ≤ ⌊d⌋ + 1 := Int.ceil_le_floor_add_one d
  have hfc : ⌊d⌋ ≤ ⌈d⌉ := Int.floor_le_ceil d
  refine ⟨toUint64_fin_eq_floor d h0 h256, toInt64_fin_eq_floor d h0 h256, ?_, ?_, ?_, ?_⟩
  · rw [hE]
    omega
  · intro hw
    have heq : ⌈d⌉ = ⌊d⌋ := by
      conv_lhs => rw [← hw]
      exact Int.ceil_intCast _
    rw [hE]
    omega
  · intro hex
    rw [hE, hex]
    have hfl : ⌊(256 : ℚ) - d⌋ = 256 - ⌈d⌉ := by
      have h1 : (256 : ℚ) - d = -d + ((256 : ℤ) : ℚ) := by push_cast; ring
      rw [h1, Int.floor_add_int, Int.floor_neg]
      ring
    rw [hfl]
    omega
  · rw [hE, toUint64_fin_eq_floor d h0 h256]
    constructor
    · intro h
      have h1 : ⌊round64 (256 - d)⌋ = 256 - ⌊d⌋ := by omega
      have h2 : ((⌊round64 (256 - d)⌋ : ℤ) : ℚ) ≤ round64 (256 - d) := Int.floor_le _
      rw [h1] at h2
      have h3 : (((256 - ⌊d⌋ : ℤ)) : ℚ) = 256 - ((⌊d⌋ : ℤ) : ℚ) := by push_cast; ring
      rw [h3] at h2
      exact le_antisymm hhiq h2
    · intro h
      rw [h]
      have h3 : (256 : ℚ) - ((⌊d⌋ : ℤ) : ℚ) = (((256 - ⌊d⌋ : ℤ)) : ℚ) := by push_cast; ring
      rw [h3, Int.floor_intCast]
      omega

theorem exponent_truncation_witness :
    (0 : ℚ) ≤ 41 / 2 ∧ (41 / 2 : ℚ) ≤ 256 ∧
    Float64.toUint64 (Float64.sub64 (.fin 256) (.fin (41 / 2))) = 235 ∧
    ⌊(41 / 2 : ℚ)⌋ = 20 ∧ ⌈(41 / 2 : ℚ)⌉ = 21 ∧
    round64 (256 - 41 / 2) = 256 - 41 / 2 ∧
    (0 : ℚ) ≤ bitsAbove4 ∧ bitsAbove4 ≤ 256 ∧
    ⌊bitsAbove4⌋ = 4 ∧ ⌈bitsAbove4⌉ = 5 ∧
    round64 (256 - bitsAbove4) = 252 ∧
    Float64.toUint64 (Float64.sub64 (.fin 256) (.fin bitsAbove4)) = 252 ∧
    (Float64.toUint64 (.fin (41 / 2)) = ⌊(41 / 2 : ℚ)⌋.toNat ∧
    Float64.toInt64 (.fin (41 / 2)) = ⌊(41 / 2 : ℚ)⌋ ∧
    (Float64.toUint64 (Float64.sub64 (.fin 256) (.fin (41 / 2))) = 256 - ⌈(41 / 2 : ℚ)⌉.toNat ∨
      Float64.toUint64 (Float64.sub64 (.fin 256) (.fin (41 / 2))) = 256 - ⌊(41 / 2 : ℚ)⌋.toNat) ∧
    (((⌊(41 / 2 : ℚ)⌋ : ℤ) : ℚ) = 41 / 2 →
      Float64.toUint64 (Float64.sub64 (.fin 256) (.fin (41 / 2))) = 256 - ⌊(41 / 2 : ℚ)⌋.toNat) ∧
    (round64 (256 - 41 / 2) = 256 - 41 / 2 →
      Float64.toUint64 (Float64.sub64 (.fin 256) (.fin (41 / 2))) = 256 - ⌈(41 / 2 : ℚ)⌉.toNat) ∧
    (Float64.toUint64 (Float64.sub64 (.fin 256) (.fin (41 / 2))) =
        256 - Float64.toUint64 (.fin (41 / 2)) ↔
      round64 (256 - 41 / 2) = 256 - ((⌊(41 / 2 : ℚ)⌋ : ℤ) : ℚ))) :=
  ⟨by norm_num, by norm_num, by decide!, by decide!, by decide!, by decide!,
    by decide!, by decide!, by decide!, by decide!, by decide!, by decide!,
    exponent_truncation (41 / 2) (by norm_num) (by norm_num)⟩

/-! ## C17 -/

/-- C17 (append-only chain with a fixed genesis): the chain created by
`NewBlockChainNetWork` has length 1 and its block 0 has empty payload, zero
target bits, empty previous hash and zero nonce; and for every ledger and
every `AddBlock` or `IncreaseMiner` call the chain before the call is a
prefix of the chain after it: every earlier block, block 0 included, is
unchanged, at most one block is added, and the length does not drop. -/
theorem append_only_chain (cfg : BlockchainConfig) (now : Int) (bc : Blockchain) (op : Op) :
    ((NewBlockChainNetWork cfg now).blocks.length = 1 ∧
      ∃ g, (NewBlockChainNetWork cfg now).blocks[0]? = some g ∧
        g.data = [] ∧ g.TargetBit = .fin 0 ∧ g.prevBlockHash = [] ∧ g.Nonce = 0) ∧
    bc.blocks <+: (step bc op).state.blocks ∧
    (∀ i, i < bc.blocks.length → (step bc op).state.blocks[i]? = bc.blocks[i]?) ∧
    bc.blocks.length ≤ (step bc op).state.blocks.length ∧
    (step bc op).state.blocks.length ≤ bc.blocks.length + 1 := by
  have hcases : (step bc op).state.blocks = bc.blocks ∨
      ∃ b, (step bc op).state.blocks = bc.blocks ++ [b] := by
    cases op with
    | increaseMiner => exact Or.inl rfl
    | addBlock block t =>
      simp only [step]
      by_cases hv : verifyNewBlock bc block = some true
      · exact Or.inr ⟨_, AddBlock_blocks_of_accept bc block t hv⟩
      · left
        rw [AddBlock_blocks_of_not_accept bc block t hv]
  refine ⟨⟨rfl, GenerateGenesisBlock [] now, rfl, rfl, rfl, rfl, rfl⟩, ?_⟩
  rcases hcases with hsame | ⟨b, happ⟩
  · rw [hsame]
    exact ⟨List.prefix_refl _, fun _ _ => rfl, le_refl _, Nat.le_succ _⟩
  · rw [happ]
    refine ⟨List.prefix_append _ _, ?_, by simp, by simp⟩
    intro i hi
    exact List.getElem?_append_left hi

/-! ## C18 -/

/-- C18 (header assembly): for every ledger with a tip, every miner id and
every payload, `assembleNewBlock` leaves the ledger unchanged and returns a
header whose coinbase and payload are the arguments, whose previous-hash is
the hash of the tip and whose target bits are the current difficulty; a
candidate built on that header passes the difficulty check and the
previous-hash check of `verifyNewBlock` on that same ledger, so that the
outcome of `verifyNewBlock` is that of `Verify`. -/
theorem assembleNewBlock_snapshot (bc : Blockchain) (coinBase : Int) (data : List Byte)
    (now : Int) (tip : Block) (htip : bc.blocks.getLast? = some tip) :
    ∃ hdr, assembleNewBlock bc coinBase data now = some (hdr, bc) ∧
      hdr.CoinBase = coinBase ∧ hdr.data = data ∧
      hdr.prevBlockHash = tip.hash ∧ hdr.TargetBit = bc.currentDifficulty ∧
      ∀ p : Proof,
        hdr.TargetBit.toUint64 = bc.currentDifficulty.toUint64 ∧
        tip.hash = hdr.prevBlockHash ∧
        verifyNewBlock bc { toBlockWithoutProof := hdr, toProof := p } =
          some (Block.Verify { toBlockWithoutProof := hdr, toProof := p }) := by
  refine ⟨{ CoinBase := coinBase, timestamp := now, data := data, prevBlockHash := tip.hash,
            TargetBit := bc.currentDifficulty, PrevBlockHashHex := tip.HashHex },
    ?_, rfl, rfl, rfl, rfl, ?_⟩
  · unfold assembleNewBlock
    rw [htip]
  · intro p
    refine ⟨rfl, rfl, ?_⟩
    unfold verifyNewBlock
    rw [htip]
    simp only [ne_eq, not_true_eq_false, if_false]
    cases hver : Block.Verify { toBlockWithoutProof := _, toProof := p } <;> simp [hver]

theorem assembleNewBlock_snapshot_witness :
    bcA1.blocks.getLast? = some (stamp candA 105) ∧
    ∃ hdr, assembleNewBlock bcA1 0 [9] 106 = some (hdr, bcA1) ∧
      hdr.CoinBase = 0 ∧ hdr.data = [9] ∧
      hdr.prevBlockHash = (stamp candA 105).hash ∧ hdr.TargetBit = bcA1.currentDifficulty ∧
      ∀ p : Proof,
        hdr.TargetBit.toUint64 = bcA1.currentDifficulty.toUint64 ∧
        (stamp candA 105).hash = hdr.prevBlockHash ∧
        verifyNewBlock bcA1 { toBlockWithoutProof := hdr, toProof := p } =
          some (Block.Verify { toBlockWithoutProof := hdr, toProof := p }) :=
  ⟨by decide!, assembleNewBlock_snapshot bcA1 0 [9] 106 (stamp candA 105) (by decide!)⟩

/-! ## C19 -/

/-- C19 (cancellation is polled before any hashing): for every header, if the
channel holds a token when `Mine` is called, `Mine` returns `(nil, false)`
with its nonce still 0, before the digest of any nonce is computed and
whatever that digest would have been, and one token is consumed: a
single-slot mailbox that held its one token is empty afterwards. -/
theorem cancellation_polled_first (b : BlockWithoutProof) (box : Nat) (arrive : Nat → Nat)
    (h : 0 < box) :
    (Mine b box arrive).block = none ∧
    (Mine b box arrive).nonce = 0 ∧
    (Mine b box arrive).waitForSignal = box + arrive 0 - 1 ∧
    (box = 1 → arrive 0 = 0 → (Mine b box arrive).waitForSignal = 0) := by
  have hmax : maxNonce = (2 ^ 63 - 2) + 1 := by decide
  have hres : Mine b box arrive =
      { block := none, waitForSignal := box + arrive 0 - 1, nonce := 0 } := by
    unfold Mine
    rw [hmax]
    unfold mineLoop
    rw [if_pos (by omega)]
  rw [hres]
  refine ⟨rfl, rfl, rfl, ?_⟩
  intro h1 h2
  show box + arrive 0 - 1 = 0
  omega

theorem cancellation_polled_first_witness :
    0 < 1 ∧
    hashInt (Sha256.Sum256 (prepareData hdrE 0)) < mineTarget hdrE.TargetBit ∧
    (Mine hdrE 0 (fun _ => 0)).block = some (minedBlock hdrE 0) ∧
    (Mine hdrE 1 (fun _ => 0)).block = none ∧
    (Mine hdrE 1 (fun _ => 0)).nonce = 0 ∧
    (Mine hdrE 1 (fun _ => 0)).waitForSignal = 1 + (fun _ : Nat => 0) 0 - 1 ∧
    (1 = 1 → (fun _ : Nat => 0) 0 = 0 → (Mine hdrE 1 (fun _ => 0)).waitForSignal = 0) :=
  ⟨by decide, by decide!, by decide!, cancellation_polled_first hdrE 1 (fun _ => 0) (by decide)⟩

/-! ## C20 -/

/-- C20 (the hash-input encoding is not injective): the headers `hdrS1`
(created at 0x6553f101, 4 target bits) and `hdrS2` (created at 0x6553f10,
0x14 target bits) differ in two hashed fields and have the same hash input
for every nonce, hence the same digest; and the headers `hdrT` and `hdrS3`,
which differ only in the fractional part of the target bits, do too. -/
theorem prepareData_not_injective :
    (hdrS1.timestamp ≠ hdrS2.timestamp ∧ hdrS1.TargetBit ≠ hdrS2.TargetBit ∧
      ∀ n : Int, prepareData hdrS1 n = prepareData hdrS2 n ∧
        Sha256.Sum256 (prepareData hdrS1 n) = Sha256.Sum256 (prepareData hdrS2 n)) ∧
    (hdrT.TargetBit ≠ hdrS3.TargetBit ∧ hdrT.CoinBase = hdrS3.CoinBase ∧
      hdrT.timestamp = hdrS3.timestamp ∧ hdrT.data = hdrS3.data ∧
      hdrT.prevBlockHash = hdrS3.prevBlockHash ∧
      ∀ n : Int, prepareData hdrT n = prepareData hdrS3 n ∧
        Sha256.Sum256 (prepareData hdrT n) = Sha256.Sum256 (prepareData hdrS3 n)) := by
  have h12 : ∀ n : Int, prepareData hdrS1 n = prepareData hdrS2 n := by
    intro n
    rw [prepareData_eq, prepareData_eq]
    have hp : int2Hex hdrS1.CoinBase ++ hdrS1.prevBlockHash ++ hdrS1.data ++
        int2Hex hdrS1.timestamp ++ int2Hex hdrS1.TargetBit.toInt64 =
      int2Hex hdrS2.CoinBase ++ hdrS2.prevBlockHash ++ hdrS2.data ++
        int2Hex hdrS2.timestamp ++ int2Hex hdrS2.TargetBit.toInt64 := by decide!
    rw [hp]
  have h13 : ∀ n : Int, prepareData hdrT n = prepareData hdrS3 n := by
    intro n
    rw [prepareData_eq, prepareData_eq]
    have hp : int2Hex hdrT.CoinBase ++ hdrT.prevBlockHash ++ hdrT.data ++
        int2Hex hdrT.timestamp ++ int2Hex hdrT.TargetBit.toInt64 =
      int2Hex hdrS3.CoinBase ++ hdrS3.prevBlockHash ++ hdrS3.data ++
        int2Hex hdrS3.timestamp ++ int2Hex hdrS3.TargetBit.toInt64 := by decide!
    rw [hp]
  refine ⟨⟨by decide, by decide!, fun n => ⟨h12 n, by rw [h12 n]⟩⟩,
    ⟨by decide!, rfl, rfl, rfl, rfl, fun n => ⟨h13 n, by rw [h13 n]⟩⟩⟩

/-! ## C21 -/

/-- C21 (registry indexing): when the candidate's coinbase `c` satisfies
`0 ≤ c < number of registered miners`, `bookkeepingRewards` indexes inside the
registry, and `AddBlock` can then panic only where `verifyNewBlock` or
`adjustDifficulty` does; validation does not establish that condition: on
the ledger `bcW0` (one miner, window 2) the candidate `candU` passes
`verifyNewBlock` with the unregistered coinbase 5, and `bookkeepingRewards`
indexes outside the registry after the block has been appended and the
difficulty adjusted from 20 to 10. -/
theorem registry_index_in_range :
    (∀ (bc : Blockchain) (block : Block) (now : Int),
      0 ≤ block.CoinBase → block.CoinBase.toNat < bc.miners.length →
      (∀ s, adjustDifficulty { bc with blocks := bc.blocks ++ [stamp block now] } = .ok s →
        ∃ s2, bookkeepingRewards s block.CoinBase = .ok s2) ∧
      (∀ s, AddBlock bc block now = .panic s →
        verifyNewBlock bc block = none ∨
        adjustDifficulty { bc with blocks := bc.blocks ++ [stamp block now] } = .panic s)) ∧
    (verifyNewBlock bcW0 candU = some true ∧
      ¬ (0 ≤ candU.CoinBase ∧ candU.CoinBase.toNat < bcW0.miners.length) ∧
      ∃ s, adjustDifficulty { bcW0 with blocks := bcW0.blocks ++ [stamp candU 100] } = .ok s ∧
        bookkeepingRewards s candU.CoinBase = .panic s ∧
        AddBlock bcW0 candU 100 = .panic s ∧
        s.blocks = bcW0.blocks ++ [stamp candU 100] ∧
        bcW0.currentDifficulty = .fin 20 ∧ s.currentDifficulty = .fin 10 ∧
        s.miners = bcW0.miners) := by
  refine ⟨?_, by decide!, by decide!, ?_⟩
  · intro bc block now h0 hlt
    have hsafe : ∀ s,
        adjustDifficulty { bc with blocks := bc.blocks ++ [stamp block now] } = .ok s →
        ∃ s2, bookkeepingRewards s block.CoinBase = .ok s2 := by
      intro s hs
      have hm := adjustDifficulty_miners { bc with blocks := bc.blocks ++ [stamp block now] }
      rw [hs] at hm
      have hm2 : s.miners = bc.miners := hm
      unfold bookkeepingRewards
      rw [if_pos ⟨h0, by rw [hm2]; exact hlt⟩]
      exact ⟨_, rfl⟩
    refine ⟨hsafe, ?_⟩
    intro s hpanic
    cases hv : verifyNewBlock bc block with
    | none => exact Or.inl rfl
    | some ok =>
      cases ok with
      | false =>
        rw [AddBlock_of_reject bc block now hv] at hpanic
        exact Run.noConfusion hpanic
      | true =>
        right
        rw [AddBlock_of_accept bc block now hv] at hpanic
        cases hadj : adjustDifficulty { bc with blocks := bc.blocks ++ [stamp block now] } with
        | panic s1 =>
          rw [hadj] at hpanic
          exact hpanic
        | ok s1 =>
          rw [hadj] at hpanic
          obtain ⟨s2, hs2⟩ := hsafe s1 hadj
          simp only [Run.andThen, hs2] at hpanic
          exact Run.noConfusion hpanic
  · exact ⟨{ bcW0 with blocks := bcW0.blocks ++ [stamp candU 100], currentDifficulty := .fin 10 },
      by decide!, by decide!, by decide!, by decide!, by decide!, by decide!, by decide!⟩

/-! ## Delegate ranking -/

theorem swapIfLess_length (s : List Dpos.Node) (i j : Nat) :
    (Dpos.swapIfLess s i j).length = s.length := by
  unfold Dpos.swapIfLess
  split
  · split
    · simp
    · rfl
  · rfl

/-- Exchanging two positions of a list permutes it. -/
theorem set_set_perm (s : List Dpos.Node) (i j : Nat) (a b : Dpos.Node)
    (ha : s[i]? = some a) (hb : s[j]? = some b) (hij : i ≠ j) :
    ((s.set i b).set j a).Perm s := by
  have hi : i < s.length := by
    by_contra hc
    rw [List.getElem?_eq_none (by omega)] at ha
    exact Option.noConfusion ha
  have hj : j < s.length := by
    by_contra hc
    rw [List.getElem?_eq_none (by omega)] at hb
    exact Option.noConfusion hb
  have hai : s[i] = a := by
    rw [List.getElem?_eq_getElem hi] at ha
    exact Option.some.inj ha
  have hbj : s[j] = b := by
    rw [List.getElem?_eq_getElem hj] at hb
    exact Option.some.inj hb
  rw [List.perm_iff_count]
  intro x
  have hj2 : j < (s.set i b).length := by simpa using hj
  rw [List.count_set a x (s.set i b) j hj2, List.count_set b x s i hi,
    List.getElem_set_ne hij, hai, hbj]
  have hle := List.boole_getElem_le_count x s i hi
  rw [hai] at hle
  split <;> split <;> simp_all

theorem swapIfLess_perm (s : List Dpos.Node) (i j : Nat) :
    (Dpos.swapIfLess s i j).Perm s := by
  unfold Dpos.swapIfLess
  split
  · rename_i a b ha hb
    split
    · rename_i hlt
      have hij : i ≠ j := by
        intro h
        rw [h, hb] at ha
        rw [Option.some.inj ha] at hlt
        exact lt_irrefl _ hlt
      exact set_set_perm s i j a b ha hb hij
    · exact List.Perm.refl _
  · exact List.Perm.refl _

theorem innerLoop_perm (i fuel j : Nat) (s : List Dpos.Node) :
    (Dpos.innerLoop i fuel j s).Perm s := by
  induction fuel generalizing j s with
  | zero => exact List.Perm.refl _
  | succ k ih => exact (ih (j + 1) _).trans (swapIfLess_perm s i j)

theorem outerLoop_perm (fuel i : Nat) (s : List Dpos.Node) :
    (Dpos.outerLoop fuel i s).Perm s := by
  induction fuel generalizing i s with
  | zero => exact List.Perm.refl _
  | succ k ih => exact (ih (i + 1) _).trans (innerLoop_perm i _ _ s)

theorem getElem?_set_set (s : List Dpos.Node) (i j x : Nat) (a b : Dpos.Node)
    (hi : i < s.length) (hj : j < s.length) :
    ((s.set i b).set j a)[x]? =
      if x = j then some a else if x = i then some b else s[x]? := by
  rw [List.getElem?_set, List.getElem?_set]
  by_cases hxj : x = j
  · rw [if_pos hxj.symm, if_pos hxj, if_pos (by simpa using hj)]
  · rw [if_neg (fun h => hxj h.symm), if_neg hxj]
    by_cases hxi : x = i
    · rw [if_pos hxi.symm, if_pos hxi, if_pos hi]
    · rw [if_neg (fun h => hxi h.symm), if_neg hxi]

theorem swapIfLess_step (s : List Dpos.Node) (i j : Nat) (hij : i < j)
    (hS : Dpos.Settled i s) (hL : Dpos.Leads i j s) :
    Dpos.Settled i (Dpos.swapIfLess s i j) ∧ Dpos.Leads i (j + 1) (Dpos.swapIfLess s i j) := by
  unfold Dpos.swapIfLess
  split
  · rename_i a b ha hb
    have hi : i < s.length := by
      by_contra hc
      rw [List.getElem?_eq_none (by omega)] at ha
      exact Option.noConfusion ha
    have hj : j < s.length := by
      by_contra hc
      rw [List.getElem?_eq_none (by omega)] at hb
      exact Option.noConfusion hb
    split
    · rename_i hlt
      refine ⟨?_, ?_⟩
      · intro k m a2 b2 hk hkm hak hbm
        rw [getElem?_set_set s i j k a b hi hj, if_neg (by omega), if_neg (by omega)] at hak
        rw [getElem?_set_set s i j m a b hi hj] at hbm
        by_cases hmj : m = j
        · rw [if_pos hmj] at hbm
          rw [← Option.some.inj hbm]
          exact hS k i a2 a hk (by omega) hak ha
        · rw [if_neg hmj] at hbm
          by_cases hmi : m = i
          · rw [if_pos hmi] at hbm
            rw [← Option.some.inj hbm]
            exact hS k j a2 b hk (by omega) hak hb
          · rw [if_neg hmi] at hbm
            exact hS k m a2 b2 hk hkm hak hbm
      · intro m a2 b2 him hmj ha2 hb2
        rw [getElem?_set_set s i j i a b hi hj, if_neg (by omega), if_pos rfl] at ha2
        rw [getElem?_set_set s i j m a b hi hj] at hb2
        rw [← Option.some.inj ha2]
        by_cases hmj2 : m = j
        · rw [if_pos hmj2] at hb2
          rw [← Option.some.inj hb2]
          exact le_of_lt hlt
        · rw [if_neg hmj2, if_neg (by omega)] at hb2
          exact le_trans (hL m a b2 him (by omega) ha hb2) (le_of_lt hlt)
    · rename_i hge
      refine ⟨hS, ?_⟩
      intro m a2 b2 him hmj ha2 hb2
      by_cases hmj2 : m = j
      · rw [hmj2, hb] at hb2
        rw [ha] at ha2
        rw [← Option.some.inj ha2, ← Option.some.inj hb2]
        exact not_lt.mp hge
      · exact hL m a2 b2 him (by omega) ha2 hb2
  · rename_i hnone
    refine ⟨hS, ?_⟩
    intro m a2 b2 him hmj ha2 hb2
    by_cases hmj2 : m = j
    · rw [hmj2] at hb2
      exact absurd hb2 (fun h => hnone a2 b2 ha2 h)
    · exact hL m a2 b2 him (by omega) ha2 hb2

theorem innerLoop_length (i fuel j : Nat) (s : List Dpos.Node) :
    (Dpos.innerLoop i fuel j s).length = s.length := by
  induction fuel generalizing j s with
  | zero => rfl
  | succ k ih =>
    show (Dpos.innerLoop i k (j + 1) (Dpos.swapIfLess s i j)).length = s.length
    rw [ih, swapIfLess_length]

theorem innerLoop_step (i fuel j : Nat) (s : List Dpos.Node) (hij : i < j)
    (hS : Dpos.Settled i s) (hL : Dpos.Leads i j s) :
    Dpos.Settled i (Dpos.innerLoop i fuel j s) ∧
    Dpos.Leads i (j + fuel) (Dpos.innerLoop i fuel j s) := by
  induction fuel generalizing j s with
  | zero => exact ⟨hS, hL⟩
  | succ k ih =>
    obtain ⟨hS2, hL2⟩ := swapIfLess_step s i j hij hS hL
    have := ih (j + 1) (Dpos.swapIfLess s i j) (by omega) hS2 hL2
    have hsum : j + 1 + k = j + (k + 1) := by omega
    rw [hsum] at this
    exact this

theorem outerLoop_settled (fuel i : Nat) (s : List Dpos.Node) (hS : Dpos.Settled i s) :
    Dpos.Settled (i + fuel) (Dpos.outerLoop fuel i s) := by
  induction fuel generalizing i s with
  | zero => exact hS
  | succ k ih =>
    have hL0 : Dpos.Leads i (i + 1) s := by
      intro m a b him hmi
      omega
    obtain ⟨hS2, hL2⟩ := innerLoop_step i (s.length - (i + 1)) (i + 1) s (by omega) hS hL0
    have hS3 : Dpos.Settled (i + 1)
        (Dpos.innerLoop i (s.length - (i + 1)) (i + 1) s) := by
      intro k2 m a b hk hkm ha hb
      by_cases hki : k2 < i
      · exact hS2 k2 m a b hki hkm ha hb
      · have hk2 : k2 = i := by omega
        rw [hk2] at ha hkm
        have hm : m < (Dpos.innerLoop i (s.length - (i + 1)) (i + 1) s).length := by
          by_contra hc
          rw [List.getElem?_eq_none (by omega)] at hb
          exact Option.noConfusion hb
        rw [innerLoop_length] at hm
        exact hL2 m a b hkm (by omega) ha hb
    have := ih (i + 1) _ hS3
    have hsum : i + 1 + k = i + (k + 1) := by omega
    rw [hsum] at this
    exact this

/-- The ranking of `nodes4`: ties keep their order of first appearance. -/
theorem sortNodesByVoteCount_nodes4 :
    ((Dpos.sortNodesByVoteCount Dpos.nodes4).1.map fun n => (n.Address, n.VoteCount)) =
      [("n1", 7), ("n2", 7), ("n3", 5), ("n0", 3)] := by
  decide

/-! ## C22 -/

/-- C22 (delegate ranking): for every list of nodes, `sortNodesByVoteCount`
returns a permutation of the input in which `VoteCount` is non-increasing
from first to last, and the input list itself is left unchanged. -/
theorem sortNodesByVoteCount_ranking (nodes : List Dpos.Node) :
    (Dpos.sortNodesByVoteCount nodes).1.Perm nodes ∧
    List.Pairwise (fun a b => b.VoteCount ≤ a.VoteCount) (Dpos.sortNodesByVoteCount nodes).1 ∧
    (∀ (k m : Nat) (a b : Dpos.Node), k < m →
      (Dpos.sortNodesByVoteCount nodes).1[k]? = some a →
      (Dpos.sortNodesByVoteCount nodes).1[m]? = some b → b.VoteCount ≤ a.VoteCount) ∧
    (Dpos.sortNodesByVoteCount nodes).2 = nodes := by
  have hS0 : Dpos.Settled 0 nodes := by
    intro k m a b hk
    omega
  have hS := outerLoop_settled nodes.length 0 nodes hS0
  have hidx : ∀ (k m : Nat) (a b : Dpos.Node), k < m →
      (Dpos.outerLoop nodes.length 0 nodes)[k]? = some a →
      (Dpos.outerLoop nodes.length 0 nodes)[m]? = some b → b.VoteCount ≤ a.VoteCount := by
    intro k m a b hkm ha hb
    have hlen : (Dpos.outerLoop nodes.length 0 nodes).length = nodes.length :=
      (outerLoop_perm nodes.length 0 nodes).length_eq
    have hm : m < nodes.length := by
      by_contra hc
      rw [List.getElem?_eq_none (by omega)] at hb
      exact Option.noConfusion hb
    exact hS k m a b (by omega) hkm ha hb
  refine ⟨outerLoop_perm nodes.length 0 nodes, ?_, hidx, rfl⟩
  rw [List.pairwise_iff_getElem]
  intro k m hk hm hkm
  exact hidx k m _ _ hkm (List.getElem?_eq_getElem hk) (List.getElem?_eq_getElem hm)

end Pow
